import Mathlib

/-!
# SRT gap closing (`src/script.js`, class `SRTProcessor`)

A shallow embedding of the data path of `SRTProcessor.parseSRT` and
`SRTProcessor.processSRT`, followed by the properties proved about it.

Modelling conventions.

* A JavaScript string is a `List Char`.  Every test the program performs on a
  character (`\s`, `\d`, a literal such as a line feed, `-` or `:`) concerns a
  character of the Basic Multilingual Plane, so reading the string as code
  points instead of UTF-16 code units changes nothing.
* The `index` field holds the result of `parseInt`, a JavaScript Number: a
  binary64 value.  `Num` holds the values `parseInt` can return other than
  `NaN` (which is `none`): a finite Number whose value is an integer, given by
  that integer, or an infinity.  `parseInt` rounds the integer it reads to the
  nearest Number (`roundToDouble`), and `numToString` is `Number::toString`:
  the shortest digits that read back as the same Number, in exponent form from
  `10 ^ 21` on.  A negative zero is kept as `0`; both are written `0`.
* DOM access, the loading animation, the notifications and the `isProcessing`
  latch of `processSRT` are presentation; the embedding keeps the text that
  goes in, the text that comes out, and which exit was taken.
-/

namespace SrtTime

/-- A JavaScript string. -/
abbrev Str := List Char

/-- The line feed character, U+000A. -/
def nl : Char := Char.ofNat 10

/-- A JavaScript Number as `parseInt` returns it, `NaN` apart: a finite Number
whose value is the integer `value`, or an infinity.  `parseInt` only builds
`finite i` for an `i` that is a Number (the result of `roundToDouble`). -/
inductive Num where
  | finite (value : Int)
  | infinite (negative : Bool)
deriving DecidableEq

/-- The object literal pushed by `parseSRT`:
`{ index, startTime, endTime, text }`. -/
structure Subtitle where
  index : Num
  startTime : Str
  endTime : Str
  text : Str
deriving DecidableEq

/-! ## Character classes of ECMAScript -/

/-- The class `\s` of a regular expression, which is also the set of characters
removed by `String.prototype.trim` and skipped by `parseInt`: WhiteSpace
(TAB, VT, FF, SP, NBSP, ZWNBSP and the Unicode space separators) together with
LineTerminator (LF, CR, LS, PS). -/
def isSpace (c : Char) : Bool :=
  let n := c.toNat
  n == 9 || n == 10 || n == 11 || n == 12 || n == 13 || n == 32 || n == 160 ||
  n == 5760 || (8192 ≤ n && n ≤ 8202) || n == 8232 || n == 8233 || n == 8239 ||
  n == 8287 || n == 12288 || n == 65279

/-- The class `\d` of a regular expression without the `u` flag: `0` to `9`. -/
def isDigit (c : Char) : Bool :=
  48 ≤ c.toNat && c.toNat ≤ 57

/-- The value of a character as a digit of radix 16 (`0-9`, `a-f`, `A-F`),
as `parseInt` reads it. -/
def hexVal (c : Char) : Option Nat :=
  let n := c.toNat
  if 48 ≤ n && n ≤ 57 then some (n - 48)
  else if 97 ≤ n && n ≤ 102 then some (n - 87)
  else if 65 ≤ n && n ≤ 70 then some (n - 55)
  else none

/-- The value of a character as a digit of the radix (10 or 16). -/
def digitVal (radix : Nat) (c : Char) : Option Nat :=
  if radix = 16 then hexVal c
  else if isDigit c then some (c.toNat - 48) else none

/-! ## String primitives -/

/-- `String.prototype.trimStart`. -/
def trimStart (s : Str) : Str := s.dropWhile isSpace

/-- `String.prototype.trimEnd`. -/
def trimEnd (s : Str) : Str := s.rdropWhile isSpace

/-- `String.prototype.trim`. -/
def trim (s : Str) : Str := trimEnd (trimStart s)

/-- `s.split('\n')`: the pieces of `s` between line feeds.  The empty string
gives one empty piece. -/
def splitLines : Str → List Str
  | [] => [[]]
  | c :: cs =>
    if c = nl then [] :: splitLines cs
    else
      match splitLines cs with
      | l :: ls => (c :: l) :: ls
      | [] => [[c]]

/-- `Array.prototype.join(sep)` on an array of strings. -/
def joinWith (sep : Str) : List Str → Str
  | [] => []
  | [x] => x
  | x :: y :: rest => x ++ sep ++ joinWith sep (y :: rest)

/-! ## The block separator `/\n\s*\n/` -/

/-- The tail `\s*\n` of the separator, matched at the start of `s` the way a
backtracking matcher does: `\s*` is greedy, so the character is first given to
`\s*`, and only when the rest cannot be matched that way is it tried as the
closing line feed.  The result is the number of characters matched. -/
def matchSpacesNl : Str → Option Nat
  | [] => none
  | c :: cs =>
    if isSpace c then
      match matchSpacesNl cs with
      | some n => some (n + 1)
      | none => if c = nl then some 1 else none
    else none

/-- The separator `/\n\s*\n/` matched at the start of `s`; the result is the
length of the match. -/
def matchSep : Str → Option Nat
  | [] => none
  | c :: cs =>
    if c = nl then (matchSpacesNl cs).map (· + 1) else none

/-- The scan of `s.split(/\n\s*\n/)`, from left to right.  `skip` counts the
characters of a separator match that are still to be passed over.  Outside a
match, the separator is tried at the current position: when it matches, the
current piece ends here and the next one starts after the match; otherwise the
character belongs to the current piece.  The end of the string closes the last
piece. -/
def splitScan : Str → Nat → List Str
  | [], _ => [[]]
  | _ :: cs, skip + 1 => splitScan cs skip
  | c :: cs, 0 =>
    match matchSep (c :: cs) with
    | some n => [] :: splitScan cs (n - 1)
    | none =>
      match splitScan cs 0 with
      | b :: bs => (c :: b) :: bs
      | [] => [[c]]

/-- `s.split(/\n\s*\n/)`. -/
def splitBlocks (s : Str) : List Str := splitScan s 0

/-! ## `parseInt` and the rendering of a number -/

/-- The digits of `parseInt`: the value of the longest prefix of `s` made of
digits of the radix, continuing from the accumulated value `acc`. -/
def readDigits (radix : Nat) : Str → Nat → Nat
  | [], acc => acc
  | c :: cs, acc =>
    match digitVal radix c with
    | some d => readDigits radix cs (acc * radix + d)
    | none => acc

/-- The digits of the radix at the start of `s`, or `none` (NaN) when `s` does
not start with one. -/
def readNat (radix : Nat) (s : Str) : Option Nat :=
  match s with
  | [] => none
  | c :: _ => if (digitVal radix c).isSome then some (readDigits radix s 0) else none

/-- The sign step of `parseInt`: the text starts with `-`. -/
def startsWithMinus : Str → Bool
  | c :: _ => c = '-'
  | [] => false

/-- The sign step of `parseInt`: a leading `+` or `-` is removed. -/
def dropSign : Str → Str
  | c :: cs => if c = '-' ∨ c = '+' then cs else c :: cs
  | [] => []

/-- The radix step of `parseInt`: the text starts with `0x` or `0X`. -/
def hasHexPrefix : Str → Bool
  | a :: b :: _ => a = '0' ∧ (b = 'x' ∨ b = 'X')
  | _ => false

/-- The number of low binary digits of `m` that do not fit in the 53 binary
digits of a Number: the least `e` with `m / 2 ^ e < 2 ^ 53`. -/
def excessBits : Nat → Nat → Nat
  | 0, _ => 0
  | fuel + 1, m => if m < 2 ^ 53 then 0 else excessBits fuel (m / 2) + 1

/-- The Number nearest to the integer `m` (round to nearest, ties to the even
mantissa), as an integer; `none` when the result is Infinity.  Below `2 ^ 53`
every integer is a Number.  Above, `m` is cut to its 53 leading binary digits
`q`, rounded on the `e` digits `r` left out, and scaled back; the largest
finite Number is `(2 ^ 53 - 1) * 2 ^ 971`. -/
def roundToDouble (m : Nat) : Option Nat :=
  if m < 2 ^ 53 then some m
  else
    let e := excessBits m m
    let q := m / 2 ^ e
    let r := m % 2 ^ e
    let half := 2 ^ (e - 1)
    let q2 := if half < r ∨ (r = half ∧ q % 2 = 1) then q + 1 else q
    let top := if q2 = 2 ^ 53 then e + 1 else e
    if top ≤ 971 then some (q2 * 2 ^ e) else none

/-- The Number that `parseInt` returns for the sign and the integer read. -/
def toNumber (negative : Bool) (m : Nat) : Num :=
  match roundToDouble m with
  | some v => Num.finite (if negative then - (v : Int) else (v : Int))
  | none => Num.infinite negative

/-- `parseInt(s)` with no radix argument: leading white space is skipped, one
sign is read, a `0x` or `0X` prefix selects radix 16 and is removed, and the
longest run of digits of the radix is the value, rounded to a Number.  No digit
gives `NaN`, here `none`.  Characters after the digits are ignored.  (For more
than 20 significant decimal digits ECMAScript allows an implementation to read
the later digits as 0; the model reads every digit.) -/
def parseInt (s : Str) : Option Num :=
  let s1 := trimStart s
  let s2 := dropSign s1
  let r : Option Nat := if hasHexPrefix s2 then readNat 16 (s2.drop 2) else readNat 10 s2
  r.map (toNumber (startsWithMinus s1))

/-- The candidates with `k` digits in `Number::toString` for the Number `x` of
`d` decimal digits: the integers `s` such that `s * 10 ^ (d - k)` reads back as
`x` are among the two next to `x / 10 ^ (d - k)`; of two, the closer to `x` is
taken, and the even one when both are as close. -/
def shortestAt (x d k : Nat) : Option Nat :=
  let p := 10 ^ (d - k)
  let lo := x / p
  let hi := lo + 1
  let okLo : Bool := roundToDouble (lo * p) = some x
  let okHi : Bool := roundToDouble (hi * p) = some x
  if okLo && okHi then
    if x - lo * p < hi * p - x then some lo
    else if hi * p - x < x - lo * p then some hi
    else if lo % 2 = 0 then some lo else some hi
  else if okLo then some lo
  else if okHi then some hi
  else none

/-- The least number of digits `k`, from `k` on, for which there is a
candidate, with the candidate; all `d` digits of `x` at the latest. -/
def shortestFrom (x d : Nat) : Nat → Nat → Nat × Nat
  | 0, _ => (x, d)
  | fuel + 1, k =>
    match shortestAt x d k with
    | some s => (s, k)
    | none => shortestFrom x d fuel (k + 1)

/-- The text of `Number::toString` for the `k` digits `s` and the exponent `n`
(the value is `s * 10 ^ (n - k)`, with `k ≤ n`): up to `n = 21` the digits and
`n - k` zeros, beyond that the exponent form `d.ddde+N`. -/
def formatDigits (s k n : Nat) : Str :=
  if n ≤ 21 then Nat.toDigits 10 s ++ List.replicate (n - k) '0'
  else
    match Nat.toDigits 10 s with
    | [] => []
    | c :: rest =>
      (if rest.isEmpty then [c] else c :: '.' :: rest) ++ 'e' :: '+' :: Nat.toDigits 10 (n - 1)

/-- `Number::toString` for a Number whose value is the non-negative integer
`x`.  Below `2 ^ 53` every integer is a Number of its own, so the shortest
digits are all the digits.  Above, the Number may be the one nearest to the
power of ten just over it, written with the single digit 1; otherwise the
shortest digits are searched from one digit up. -/
def natToString (x : Nat) : Str :=
  if x < 2 ^ 53 then Nat.toDigits 10 x
  else
    let d := (Nat.toDigits 10 x).length
    if roundToDouble (10 ^ d) = some x then formatDigits 1 1 (d + 1)
    else
      let sk := shortestFrom x d (d - 1) 1
      formatDigits sk.1 sk.2 d

/-- The text a template literal gives a Number, `Number::toString`. -/
def numToString : Num → Str
  | Num.finite (Int.ofNat n) => natToString n
  | Num.finite (Int.negSucc n) => '-' :: natToString (n + 1)
  | Num.infinite false => "Infinity".toList
  | Num.infinite true => "-Infinity".toList

/-! ## The timing line -/

/-- The pattern `\d{2}:\d{2}:\d{2},\d{3}` matched at the start of `s`: the
twelve characters matched and what follows them. -/
def matchStamp : Str → Option (Str × Str)
  | h1 :: h2 :: c1 :: m1 :: m2 :: c2 :: s1 :: s2 :: c3 :: f1 :: f2 :: f3 :: rest =>
    if isDigit h1 && isDigit h2 && c1 == ':' && isDigit m1 && isDigit m2 && c2 == ':' &&
        isDigit s1 && isDigit s2 && c3 == ',' && isDigit f1 && isDigit f2 && isDigit f3 then
      some ([h1, h2, c1, m1, m2, c2, s1, s2, c3, f1, f2, f3], rest)
    else none
  | _ => none

/-- The literal `-->` at the start of `s`; what follows it. -/
def matchArrow : Str → Option Str
  | a :: b :: c :: rest => if a = '-' ∧ b = '-' ∧ c = '>' then some rest else none
  | _ => none

/-- The whole pattern
`(\d{2}:\d{2}:\d{2},\d{3})\s*-->\s*(\d{2}:\d{2}:\d{2},\d{3})` matched at the
start of `s`; the two captures.  Each `\s*` takes the whole run of white space:
what must follow it (`-`, a digit) is not white space, so giving characters
back cannot produce a match. -/
def matchTimeAt (s : Str) : Option (Str × Str) :=
  match matchStamp s with
  | none => none
  | some (t1, r1) =>
    match matchArrow (r1.dropWhile isSpace) with
    | none => none
    | some r2 =>
      match matchStamp (r2.dropWhile isSpace) with
      | none => none
      | some (t2, _) => some (t1, t2)

/-- `timeLine.match(...)`: the pattern has no anchor, so it is tried at every
position from the left and the first match wins. -/
def matchTime : Str → Option (Str × Str)
  | [] => none
  | c :: cs =>
    match matchTimeAt (c :: cs) with
    | some r => some r
    | none => matchTime cs

/-! ## `parseSRT` -/

/-- The body of the loop of `parseSRT` for one block: the record pushed, or
`none` when the block is skipped. -/
def parseBlock (block : Str) : Option Subtitle :=
  match splitLines (trim block) with
  | l0 :: timeLine :: l2 :: rest =>
    let index := parseInt l0
    let text := joinWith [nl] (l2 :: rest)
    match matchTime timeLine, index with
    | some (t1, t2), some i =>
      some { index := i, startTime := t1, endTime := t2, text := trim text }
    | _, _ => none
  | _ => none

/-- `parseSRT(content)`. -/
def parseSRT (content : Str) : List Subtitle :=
  (splitBlocks (trim content)).filterMap parseBlock

/-! ## `processSRT` -/

/-- One step of the loop `for (let i = 0; i < subtitles.length - 1; i++)`:
`subtitles[i].endTime = subtitles[i + 1].startTime`. -/
def closeGapAt (subs : List Subtitle) (i : Nat) : List Subtitle :=
  match subs.get? (i + 1) with
  | some next => subs.modify (fun s => { s with endTime := next.startTime }) i
  | none => subs

/-- The gap-closing loop of `processSRT`, run on the array for
`i = 0, ..., length - 2` in this order. -/
def closeGaps (subs : List Subtitle) : List Subtitle :=
  (List.range (subs.length - 1)).foldl closeGapAt subs

/-- The timing line written by `processSRT`: `startTime --> endTime`. -/
def timingLine (s : Subtitle) : Str :=
  s.startTime ++ " --> ".toList ++ s.endTime

/-- The template literal of `processSRT`:
the index, a line feed, `startTime --> endTime`, a line feed, the text. -/
def render (s : Subtitle) : Str :=
  numToString s.index ++ [nl] ++ s.startTime ++ " --> ".toList ++ s.endTime ++ [nl] ++ s.text

/-- The `map(...).join('\n\n')` of `processSRT`. -/
def serialize (subs : List Subtitle) : Str :=
  joinWith [nl, nl] (subs.map render)

/-- How a call of `processSRT` ends. -/
inductive Outcome where
  /-- The early `return` on an empty trimmed input: nothing is written. -/
  | ignored
  /-- The `throw` on zero parsed records: an error is shown, nothing is written. -/
  | noSubtitles
  /-- The text written to the output and the count shown to the user. -/
  | success (processed : Str) (count : Nat)
deriving DecidableEq

/-- The data path of `processSRT` on the text of the input area. -/
def processSRT (raw : Str) : Outcome :=
  let content := trim raw
  if content = [] then Outcome.ignored
  else
    let subtitles := parseSRT content
    if subtitles.length = 0 then Outcome.noSubtitles
    else
      let closed := closeGaps subtitles
      Outcome.success (serialize closed) closed.length

/-! ## Predicates used in the statements -/

/-- No separator `/\n\s*\n/` matches at any position of `s`. -/
def sepFree : Str → Bool
  | [] => true
  | c :: cs => (matchSep (c :: cs)).isNone && sepFree cs

/-- The last character of `s`, when there is one, is not white space. -/
def EndsVisible (s : Str) : Prop := ∀ c, s.getLast? = some c → isSpace c = false

/-- The first character of `s`, when there is one, is not white space. -/
def StartsVisible (s : Str) : Prop := ∀ c, s.head? = some c → isSpace c = false

/-- A line made of white space only (the empty line included). -/
def isBlank (l : Str) : Bool := l.all isSpace

/-- No line of `s` is made of white space only. -/
def noBlankLine (s : Str) : Bool := (splitLines s).all (fun l => !isBlank l)

/-- A text of the exact shape `HH:MM:SS,mmm`. -/
def isStamp (t : Str) : Bool :=
  match matchStamp t with
  | some (_, rest) => rest.isEmpty
  | none => false

/-- A record as `parseSRT` produces them: both times of the shape
`HH:MM:SS,mmm`, and a text that is trimmed and has no blank line (so it is not
empty). -/
def WellFormed (r : Subtitle) : Prop :=
  isStamp r.startTime = true ∧ isStamp r.endTime = true ∧
  trim r.text = r.text ∧ noBlankLine r.text = true

instance (r : Subtitle) : Decidable (WellFormed r) :=
  inferInstanceAs (Decidable (_ ∧ _ ∧ _ ∧ _))

/-- A valid record in the words of the specification: both times of the shape
`HH:MM:SS,mmm`, and a text of one or more lines that is not empty and has no
white space at either end. -/
def SpecValid (r : Subtitle) : Prop :=
  isStamp r.startTime = true ∧ isStamp r.endTime = true ∧
  r.text ≠ [] ∧ trim r.text = r.text

instance (r : Subtitle) : Decidable (SpecValid r) :=
  inferInstanceAs (Decidable (_ ∧ _ ∧ _ ∧ _))

/-- The number of milliseconds a text of the shape `HH:MM:SS,mmm` stands for. -/
def stampMillis (t : Str) : Nat :=
  match t with
  | [h1, h2, _, m1, m2, _, s1, s2, _, f1, f2, f3] =>
    let d := fun (c : Char) => c.toNat - 48
    (((d h1 * 10 + d h2) * 60 + (d m1 * 10 + d m2)) * 60 + (d s1 * 10 + d s2)) * 1000
      + (d f1 * 100 + d f2 * 10 + d f3)
  | _ => 0

/-- Strictly increasing, non-overlapping times: every record starts before it
ends and ends no later than the next one starts. -/
def chronological : List Subtitle → Bool
  | [] => true
  | [r] => stampMillis r.startTime < stampMillis r.endTime
  | r :: r2 :: rest =>
    stampMillis r.startTime < stampMillis r.endTime &&
    stampMillis r.endTime ≤ stampMillis r2.startTime && chronological (r2 :: rest)

/-- A Number that is an integer of magnitude below `2 ^ 53`. -/
def isSafe : Num → Bool
  | Num.finite i => i.natAbs < 2 ^ 53
  | Num.infinite _ => false

/-- An integer in decimal: all its digits, no padding, a leading `-` when
negative. -/
def decimalText : Int → Str
  | Int.ofNat n => Nat.toDigits 10 n
  | Int.negSucc n => '-' :: Nat.toDigits 10 (n + 1)

/-- The text starts with a digit of the radix. -/
def startsWithDigit (radix : Nat) : Str → Bool
  | c :: _ => (digitVal radix c).isSome
  | [] => false

/-- A line on which `parseInt` finds no number: after the leading white space
and one optional sign, either `0x` or `0X` comes and no hexadecimal digit
follows it, or no `0x` or `0X` comes and the rest does not start with a decimal
digit. -/
def isNaNLine (l : Str) : Bool :=
  let s := dropSign (trimStart l)
  if hasHexPrefix s then !startsWithDigit 16 (s.drop 2) else !startsWithDigit 10 s

/-- An integer written out: an optional sign followed by decimal digits and
nothing else. -/
def isIntegerText (l : Str) : Bool :=
  let digits := dropSign l
  !digits.isEmpty && digits.all isDigit

/-- A timing line that is the pattern `HH:MM:SS,mmm --> HH:MM:SS,mmm` and
nothing else: the pattern read with an anchor at both ends of the line. -/
def isTimingLine (l : Str) : Bool :=
  match matchStamp l with
  | none => false
  | some (_, r1) =>
    match matchArrow (r1.dropWhile isSpace) with
    | none => false
    | some r2 => isStamp (r2.dropWhile isSpace)

/-! ## The gap-closing loop -/

theorem closeGapAt_cons_succ (a : Subtitle) (l : List Subtitle) (i : Nat) :
    closeGapAt (a :: l) (i + 1) = a :: closeGapAt l i := by
  unfold closeGapAt
  simp only [List.get?_cons_succ]
  cases l.get? (i + 1) <;> simp [List.modify_succ_cons]

theorem foldl_closeGapAt_cons (a : Subtitle) (is : List Nat) (l : List Subtitle) :
    (is.map Nat.succ).foldl closeGapAt (a :: l) = a :: is.foldl closeGapAt l := by
  induction is generalizing l with
  | nil => rfl
  | cons i is ih =>
    simp only [List.map_cons, List.foldl_cons, Nat.succ_eq_add_one, closeGapAt_cons_succ]
    exact ih _

@[simp] theorem closeGaps_nil : closeGaps [] = [] := rfl

@[simp] theorem closeGaps_singleton (s : Subtitle) : closeGaps [s] = [s] := rfl

/-- The loop, unfolded at the head of the array: the first record takes the
start of the second, and the loop goes on with the rest. -/
theorem closeGaps_cons_cons (s t : Subtitle) (rest : List Subtitle) :
    closeGaps (s :: t :: rest) =
      { s with endTime := t.startTime } :: closeGaps (t :: rest) := by
  have h1 : (s :: t :: rest).length - 1 = (t :: rest).length - 1 + 1 := by simp
  unfold closeGaps
  rw [h1, List.range_succ_eq_map, List.foldl_cons]
  have h2 : closeGapAt (s :: t :: rest) 0 = { s with endTime := t.startTime } :: t :: rest := by
    simp [closeGapAt]
  rw [h2, foldl_closeGapAt_cons]

theorem closeGaps_length (rs : List Subtitle) : (closeGaps rs).length = rs.length := by
  induction rs with
  | nil => rfl
  | cons s tl ih =>
    cases tl with
    | nil => rfl
    | cons t rest => rw [closeGaps_cons_cons]; simpa using ih

theorem closeGaps_head (t : Subtitle) (rest : List Subtitle) :
    ∃ e tl, closeGaps (t :: rest) = { t with endTime := e } :: tl := by
  cases rest with
  | nil => exact ⟨t.endTime, [], rfl⟩
  | cons u rest => exact ⟨u.startTime, closeGaps (u :: rest), closeGaps_cons_cons t u rest⟩

theorem closeGaps_getLast (rs : List Subtitle) : (closeGaps rs).getLast? = rs.getLast? := by
  induction rs with
  | nil => rfl
  | cons s tl ih =>
    cases tl with
    | nil => rfl
    | cons t rest =>
      obtain ⟨e, tl2, h⟩ := closeGaps_head t rest
      rw [closeGaps_cons_cons, List.getLast?_cons_cons, ← ih, h, List.getLast?_cons_cons]

theorem closeGaps_map_of_frame {β : Type} (f : Subtitle → β)
    (hf : ∀ (s : Subtitle) (e : Str), f { s with endTime := e } = f s) (rs : List Subtitle) :
    (closeGaps rs).map f = rs.map f := by
  induction rs with
  | nil => rfl
  | cons s tl ih =>
    cases tl with
    | nil => rfl
    | cons t rest => rw [closeGaps_cons_cons, List.map_cons, ih, hf]; rfl

theorem closeGaps_get?_end (rs : List Subtitle) (i : Nat) (h : i + 1 < rs.length) :
    ((closeGaps rs).get? i).map Subtitle.endTime = some (rs.get ⟨i + 1, h⟩).startTime := by
  induction rs generalizing i with
  | nil => simp at h
  | cons s tl ih =>
    cases tl with
    | nil => simp at h
    | cons t rest =>
      rw [closeGaps_cons_cons]
      cases i with
      | zero => simp
      | succ j =>
        have hj : j + 1 < (t :: rest).length := by simpa using h
        simpa using ih j hj

theorem closeGaps_get?_start (rs : List Subtitle) (i : Nat) :
    ((closeGaps rs).get? i).map Subtitle.startTime = (rs.get? i).map Subtitle.startTime := by
  have h := closeGaps_map_of_frame Subtitle.startTime (fun _ _ => rfl) rs
  have h2 := congrArg (fun l => l.get? i) h
  simpa [List.getElem?_map] using h2

theorem closeGaps_idem (rs : List Subtitle) : closeGaps (closeGaps rs) = closeGaps rs := by
  induction rs with
  | nil => rfl
  | cons s tl ih =>
    cases tl with
    | nil => rfl
    | cons t rest =>
      obtain ⟨e, tl2, h⟩ := closeGaps_head t rest
      rw [closeGaps_cons_cons, h, closeGaps_cons_cons, ← h, ih]

/-! ## Characters -/

theorem isSpace_nl : isSpace nl = true := by decide

theorem not_isSpace_of_isDigit {c : Char} (h : isDigit c = true) : isSpace c = false := by
  simp only [isDigit, Bool.and_eq_true, decide_eq_true_eq] at h
  simp only [isSpace, Bool.or_eq_false_iff, beq_eq_false_iff_ne, ne_eq, Bool.and_eq_false_imp,
    decide_eq_true_eq, decide_eq_false_iff_not]
  omega

theorem ne_nl_of_not_isSpace {c : Char} (h : isSpace c = false) : c ≠ nl := by
  intro hc
  rw [hc, isSpace_nl] at h
  exact Bool.noConfusion h

/-! ## The separator -/

theorem matchSpacesNl_cons (c : Char) (cs : Str) :
    matchSpacesNl (c :: cs) =
      if isSpace c then
        match matchSpacesNl cs with
        | some n => some (n + 1)
        | none => if c = nl then some 1 else none
      else none := rfl

theorem matchSep_cons (c : Char) (cs : Str) :
    matchSep (c :: cs) = if c = nl then (matchSpacesNl cs).map (· + 1) else none := rfl

theorem matchSpacesNl_of_not_isSpace {c : Char} (cs : Str) (h : isSpace c = false) :
    matchSpacesNl (c :: cs) = none := by
  simp [matchSpacesNl_cons, h]

/-- White space other than a line feed in front of a character that is not
white space: `\s*\n` cannot match. -/
theorem matchSpacesNl_spaces_then_char (w : Str) (c : Char) (rest : Str)
    (hw : ∀ x ∈ w, x ≠ nl) (hc : isSpace c = false) :
    matchSpacesNl (w ++ c :: rest) = none := by
  induction w with
  | nil => exact matchSpacesNl_of_not_isSpace rest hc
  | cons x w ih =>
    have hx : x ≠ nl := hw x (List.mem_cons_self _ _)
    have ih2 := ih (fun y hy => hw y (List.mem_cons_of_mem _ hy))
    rw [List.cons_append, matchSpacesNl_cons, ih2]
    simp [hx]

/-- Once a character that is not white space is in sight, what comes after it
plays no part in the match of `\s*\n`. -/
theorem matchSpacesNl_append (t ctx : Str) (h : ∃ c ∈ t, isSpace c = false) :
    matchSpacesNl (t ++ ctx) = matchSpacesNl t := by
  induction t with
  | nil => simp at h
  | cons d t ih =>
    by_cases hd : isSpace d = true
    · have h2 : ∃ c ∈ t, isSpace c = false := by
        obtain ⟨c, hc, hcs⟩ := h
        rcases List.mem_cons.mp hc with rfl | hc2
        · rw [hd] at hcs; exact Bool.noConfusion hcs
        · exact ⟨c, hc2, hcs⟩
      rw [List.cons_append, matchSpacesNl_cons, matchSpacesNl_cons, ih h2]
    · simp only [Bool.not_eq_true] at hd
      rw [List.cons_append, matchSpacesNl_of_not_isSpace _ hd, matchSpacesNl_of_not_isSpace _ hd]

/-- A match of `\s*\n` on a prefix stays a match, possibly a longer one, on the
whole string. -/
theorem matchSpacesNl_none_of_append (p q : Str) (h : matchSpacesNl (p ++ q) = none) :
    matchSpacesNl p = none := by
  induction p with
  | nil => rfl
  | cons d p ih =>
    rw [List.cons_append, matchSpacesNl_cons] at h
    rw [matchSpacesNl_cons]
    by_cases hd : isSpace d = true
    · simp only [hd, if_true] at h ⊢
      cases hpq : matchSpacesNl (p ++ q) with
      | some n => rw [hpq] at h; simp at h
      | none =>
        rw [hpq] at h
        rw [ih hpq]
        exact h
    · simp [hd]

theorem matchSep_none_of_append (p q : Str) (h : matchSep (p ++ q) = none) : matchSep p = none := by
  cases p with
  | nil => rfl
  | cons d p =>
    rw [List.cons_append, matchSep_cons] at h
    rw [matchSep_cons]
    by_cases hd : d = nl
    · simp only [hd, if_true, Option.map_eq_none'] at h ⊢
      exact matchSpacesNl_none_of_append p q h
    · simp [hd]

theorem matchSep_of_ne_nl {c : Char} (cs : Str) (h : c ≠ nl) : matchSep (c :: cs) = none := by
  simp [matchSep_cons, h]

/-- Two line feeds in front of a line that is not blank: the separator matches
exactly the two line feeds. -/
theorem matchSep_nl_nl (w : Str) (c : Char) (rest : Str)
    (hw : ∀ x ∈ w, x ≠ nl) (hc : isSpace c = false) :
    matchSep (nl :: nl :: (w ++ c :: rest)) = some 2 := by
  simp [matchSep_cons, matchSpacesNl_cons, isSpace_nl, matchSpacesNl_spaces_then_char w c rest hw hc]

/-! ## Splitting into blocks -/

theorem endsVisible_tail {b : Char} {s : Str} (h : EndsVisible (b :: s)) : EndsVisible s := by
  intro c hc
  cases s with
  | nil => simp at hc
  | cons x s => exact h c (by rw [List.getLast?_cons_cons]; exact hc)

theorem endsVisible_exists {s : Str} (h : EndsVisible s) (hne : s ≠ []) :
    ∃ c ∈ s, isSpace c = false := by
  cases hl : s.getLast? with
  | none => exact absurd (List.getLast?_eq_none_iff.mp hl) hne
  | some c => exact ⟨c, List.mem_of_getLast?_eq_some hl, h c hl⟩

theorem sepFree_cons (c : Char) (cs : Str) :
    sepFree (c :: cs) = ((matchSep (c :: cs)).isNone && sepFree cs) := rfl

theorem sepFree_cons_iff (c : Char) (cs : Str) :
    sepFree (c :: cs) = true ↔ matchSep (c :: cs) = none ∧ sepFree cs = true := by
  rw [sepFree_cons, Bool.and_eq_true, Option.isNone_iff_eq_none]

theorem splitScan_nil (k : Nat) : splitScan [] k = [[]] := by
  cases k <;> rfl

theorem splitScan_skip (c : Char) (cs : Str) (k : Nat) :
    splitScan (c :: cs) (k + 1) = splitScan cs k := rfl

theorem splitScan_ne_nil (s : Str) (k : Nat) : splitScan s k ≠ [] := by
  induction s generalizing k with
  | nil => rw [splitScan_nil]; simp
  | cons c cs ih =>
    cases k with
    | succ k => rw [splitScan_skip]; exact ih k
    | zero =>
      unfold splitScan
      split
      · simp
      · split <;> simp

theorem splitScan_match {c : Char} {cs : Str} {n : Nat} (h : matchSep (c :: cs) = some n) :
    splitScan (c :: cs) 0 = [] :: splitScan cs (n - 1) := by
  rw [splitScan, h]

theorem splitScan_char {c : Char} {cs b : Str} {bs : List Str}
    (h : matchSep (c :: cs) = none) (hcs : splitScan cs 0 = b :: bs) :
    splitScan (c :: cs) 0 = (c :: b) :: bs := by
  rw [splitScan, h, hcs]

/-- The characters of a separator match are passed over. -/
theorem splitScan_pass (xs rest : Str) : splitScan (xs ++ rest) xs.length = splitScan rest 0 := by
  induction xs with
  | nil => rfl
  | cons x xs ih => rw [List.cons_append, List.length_cons, splitScan_skip, ih]

/-- The separator cannot match inside a block that has no separator and ends
on a visible character, whatever follows the block. -/
theorem matchSep_in_context (b : Char) (B ctx : Str) (hfree : sepFree (b :: B) = true)
    (hend : EndsVisible (b :: B)) : matchSep (b :: (B ++ ctx)) = none := by
  by_cases hb : b = nl
  · have h1 : matchSpacesNl B = none := by
      have := ((sepFree_cons_iff b B).mp hfree).1
      rw [matchSep_cons, if_pos hb, Option.map_eq_none'] at this
      exact this
    have hne : B ≠ [] := by
      intro hB
      have := hend b (by rw [hB]; rfl)
      rw [hb, isSpace_nl] at this
      exact Bool.noConfusion this
    rw [matchSep_cons, if_pos hb, Option.map_eq_none',
      matchSpacesNl_append B ctx (endsVisible_exists (endsVisible_tail hend) hne)]
    exact h1
  · exact matchSep_of_ne_nl _ hb

/-- A block without separator that ends on a visible character is read as one
piece: it is prefixed to the first piece of what follows. -/
theorem splitScan_block (B ctx b0 : Str) (bs : List Str) (hfree : sepFree B = true)
    (hend : EndsVisible B) (hctx : splitScan ctx 0 = b0 :: bs) :
    splitScan (B ++ ctx) 0 = (B ++ b0) :: bs := by
  induction B with
  | nil => exact hctx
  | cons b B ih =>
    have ih2 := ih ((sepFree_cons_iff b B).mp hfree).2 (endsVisible_tail hend)
    rw [List.cons_append, List.cons_append]
    exact splitScan_char (matchSep_in_context b B ctx hfree hend) ih2

/-- Two line feeds, then a line that is not blank: a new piece starts after the
two line feeds. -/
theorem splitScan_nl_nl (w : Str) (c : Char) (rest : Str)
    (hw : ∀ x ∈ w, x ≠ nl) (hc : isSpace c = false) :
    splitScan (nl :: nl :: (w ++ c :: rest)) 0 = [] :: splitScan (w ++ c :: rest) 0 := by
  rw [splitScan_match (matchSep_nl_nl w c rest hw hc)]
  exact congrArg (List.cons []) (splitScan_pass [nl] _)

/-- A block, two line feeds, and a line that is not blank. -/
theorem splitBlocks_block_sep (B w : Str) (c : Char) (rest : Str) (hfree : sepFree B = true)
    (hend : EndsVisible B) (hw : ∀ x ∈ w, x ≠ nl) (hc : isSpace c = false) :
    splitBlocks (B ++ nl :: nl :: (w ++ c :: rest)) = B :: splitBlocks (w ++ c :: rest) := by
  have h := splitScan_block B _ [] _ hfree hend (splitScan_nl_nl w c rest hw hc)
  rw [List.append_nil] at h
  exact h

/-- A block alone. -/
theorem splitBlocks_block (B : Str) (hfree : sepFree B = true) (hend : EndsVisible B) :
    splitBlocks B = [B] := by
  have h := splitScan_block B [] [] [] hfree hend (splitScan_nil 0)
  rw [List.append_nil] at h
  exact h

/-! ## Lines -/

theorem splitLines_cons_nl (cs : Str) : splitLines (nl :: cs) = [] :: splitLines cs := by
  rw [splitLines, if_pos rfl]

theorem splitLines_cons_char {c : Char} {cs l : Str} {ls : List Str} (hc : c ≠ nl)
    (h : splitLines cs = l :: ls) : splitLines (c :: cs) = (c :: l) :: ls := by
  rw [splitLines, if_neg hc, h]

theorem splitLines_ne_nil (s : Str) : splitLines s ≠ [] := by
  cases s with
  | nil => simp [splitLines]
  | cons c cs =>
    unfold splitLines
    split
    · simp
    · split <;> simp

theorem splitLines_exists (s : Str) : ∃ l ls, splitLines s = l :: ls := by
  cases h : splitLines s with
  | nil => exact absurd h (splitLines_ne_nil s)
  | cons l ls => exact ⟨l, ls, rfl⟩

/-- A line without line feed, a line feed, and the rest. -/
theorem splitLines_append_nl (X Y : Str) (hX : ∀ x ∈ X, x ≠ nl) :
    splitLines (X ++ nl :: Y) = X :: splitLines Y := by
  induction X with
  | nil => exact splitLines_cons_nl Y
  | cons x X ih =>
    exact splitLines_cons_char (hX x (List.mem_cons_self _ _))
      (ih (fun y hy => hX y (List.mem_cons_of_mem _ hy)))

theorem joinWith_cons_cons (sep x y : Str) (rest : List Str) :
    joinWith sep (x :: y :: rest) = x ++ sep ++ joinWith sep (y :: rest) := rfl

theorem joinWith_cons_head (sep : Str) (c : Char) (l : Str) (ls : List Str) :
    joinWith sep ((c :: l) :: ls) = c :: joinWith sep (l :: ls) := by
  cases ls with
  | nil => rfl
  | cons y rest => simp [joinWith_cons_cons]

/-- Joining the lines of a string with line feeds gives the string back. -/
theorem joinWith_splitLines (s : Str) : joinWith [nl] (splitLines s) = s := by
  induction s with
  | nil => rfl
  | cons c cs ih =>
    obtain ⟨l, ls, h⟩ := splitLines_exists cs
    by_cases hc : c = nl
    · rw [hc, splitLines_cons_nl, h, joinWith_cons_cons, ← h, ih]; rfl
    · rw [splitLines_cons_char hc h, joinWith_cons_head, ← h, ih]

/-! ## Trimming -/

theorem trimStart_startsVisible (s : Str) : StartsVisible (trimStart s) := by
  intro c hc
  have h := List.head?_dropWhile_not isSpace s
  unfold trimStart at hc
  rw [hc] at h
  simpa using h

theorem trimStart_of_startsVisible {s : Str} (h : StartsVisible s) : trimStart s = s := by
  cases s with
  | nil => rfl
  | cons c cs =>
    have hc : isSpace c = false := h c rfl
    simp [trimStart, List.dropWhile_cons, hc]

theorem trimEnd_of_endsVisible {s : Str} (h : EndsVisible s) : trimEnd s = s := by
  unfold trimEnd
  rw [List.rdropWhile_eq_self_iff]
  intro hl
  have := h _ (List.getLast?_eq_getLast s hl)
  simp [this]

theorem trimEnd_endsVisible (s : Str) : EndsVisible (trimEnd s) := by
  intro c hc
  unfold trimEnd at hc
  have hne : s.rdropWhile isSpace ≠ [] := by
    intro h0; rw [h0] at hc; simp at hc
  have h := List.rdropWhile_last_not isSpace s hne
  rw [List.getLast?_eq_getLast _ hne] at hc
  have hc2 : (s.rdropWhile isSpace).getLast hne = c := Option.some.inj hc
  rw [hc2] at h
  simpa using h

theorem trimEnd_startsVisible {s : Str} (h : StartsVisible s) : StartsVisible (trimEnd s) := by
  intro c hc
  obtain ⟨t, ht⟩ := List.rdropWhile_prefix isSpace s
  unfold trimEnd at hc
  cases hr : s.rdropWhile isSpace with
  | nil => rw [hr] at hc; simp at hc
  | cons x xs =>
    rw [hr] at hc ht
    apply h c
    rw [← ht]
    simpa using hc

theorem trim_startsVisible (s : Str) : StartsVisible (trim s) :=
  trimEnd_startsVisible (trimStart_startsVisible s)

theorem trim_endsVisible (s : Str) : EndsVisible (trim s) :=
  trimEnd_endsVisible _

theorem trim_of_visible {s : Str} (h1 : StartsVisible s) (h2 : EndsVisible s) : trim s = s := by
  unfold trim
  rw [trimStart_of_startsVisible h1, trimEnd_of_endsVisible h2]

theorem trim_trim (s : Str) : trim (trim s) = trim s :=
  trim_of_visible (trim_startsVisible s) (trim_endsVisible s)

/-- A trimmed string starts and ends on a visible character. -/
theorem visible_of_trim_eq {s : Str} (h : trim s = s) : StartsVisible s ∧ EndsVisible s := by
  constructor
  · rw [← h]; exact trim_startsVisible s
  · rw [← h]; exact trim_endsVisible s

theorem sepFree_right (p q : Str) (h : sepFree (p ++ q) = true) : sepFree q = true := by
  induction p with
  | nil => exact h
  | cons c p ih => exact ih ((sepFree_cons_iff c (p ++ q)).mp h).2

theorem sepFree_left (p q : Str) (h : sepFree (p ++ q) = true) : sepFree p = true := by
  induction p with
  | nil => rfl
  | cons c p ih =>
    have h2 := (sepFree_cons_iff c (p ++ q)).mp h
    exact (sepFree_cons_iff c p).mpr ⟨matchSep_none_of_append (c :: p) q h2.1, ih h2.2⟩

theorem sepFree_trim {s : Str} (h : sepFree s = true) : sepFree (trim s) = true := by
  obtain ⟨a, ha⟩ := List.dropWhile_suffix isSpace (l := s)
  obtain ⟨b, hb⟩ := List.rdropWhile_prefix isSpace (trimStart s)
  have h1 : sepFree (trimStart s) = true := by
    rw [← ha] at h; exact sepFree_right a _ h
  rw [← hb] at h1
  exact sepFree_left _ b h1

/-! ## Blank lines and separators -/

theorem isBlank_cons (c : Char) (l : Str) : isBlank (c :: l) = (isSpace c && isBlank l) := rfl

theorem noBlankLine_iff (s : Str) :
    noBlankLine s = true ↔ ∀ l ∈ splitLines s, isBlank l = false := by
  simp [noBlankLine, List.all_eq_true]

/-- In front of a line that is not blank, `\s*\n` does not match. -/
theorem matchSpacesNl_of_first_line (cs l : Str) (ls : List Str) (h : splitLines cs = l :: ls)
    (hl : isBlank l = false) : matchSpacesNl cs = none := by
  induction cs generalizing l ls with
  | nil => rfl
  | cons d ds ih =>
    obtain ⟨l2, ls2, h2⟩ := splitLines_exists ds
    by_cases hd : d = nl
    · rw [hd, splitLines_cons_nl] at h
      have : l = [] := (List.cons.inj h).1.symm
      rw [this] at hl
      exact Bool.noConfusion hl
    · rw [splitLines_cons_char hd h2] at h
      have hl2 : l = d :: l2 := (List.cons.inj h).1.symm
      rw [hl2, isBlank_cons] at hl
      by_cases hs : isSpace d = true
      · rw [hs, Bool.true_and] at hl
        rw [matchSpacesNl_cons, ih l2 ls2 h2 hl]
        simp [hd]
      · simp only [Bool.not_eq_true] at hs
        exact matchSpacesNl_of_not_isSpace ds hs

/-- Where `\s*\n` does not match and a visible character follows, the first
line is not blank. -/
theorem first_line_of_matchSpacesNl (cs l : Str) (ls : List Str) (h : splitLines cs = l :: ls)
    (hm : matchSpacesNl cs = none) (hv : ∃ c ∈ cs, isSpace c = false) : isBlank l = false := by
  induction cs generalizing l ls with
  | nil => simp at hv
  | cons d ds ih =>
    obtain ⟨l2, ls2, h2⟩ := splitLines_exists ds
    by_cases hs : isSpace d = true
    · rw [matchSpacesNl_cons, if_pos hs] at hm
      cases hds : matchSpacesNl ds with
      | some n => rw [hds] at hm; simp at hm
      | none =>
        rw [hds] at hm
        have hd : d ≠ nl := by
          intro hd; rw [if_pos hd] at hm; simp at hm
        have hv2 : ∃ c ∈ ds, isSpace c = false := by
          obtain ⟨c, hc, hcs⟩ := hv
          rcases List.mem_cons.mp hc with rfl | hc2
          · rw [hs] at hcs; exact Bool.noConfusion hcs
          · exact ⟨c, hc2, hcs⟩
        rw [splitLines_cons_char hd h2] at h
        have hl2 : l = d :: l2 := (List.cons.inj h).1.symm
        rw [hl2, isBlank_cons, ih l2 ls2 h2 hds hv2, Bool.and_false]
    · simp only [Bool.not_eq_true] at hs
      rw [splitLines_cons_char (ne_nl_of_not_isSpace hs) h2] at h
      have hl2 : l = d :: l2 := (List.cons.inj h).1.symm
      rw [hl2, isBlank_cons, hs, Bool.false_and]

theorem sepFree_of_tail_lines (T : Str) (h : ∀ l ∈ (splitLines T).tail, isBlank l = false) :
    sepFree T = true := by
  induction T with
  | nil => rfl
  | cons c cs ih =>
    obtain ⟨l, ls, hls⟩ := splitLines_exists cs
    rw [sepFree_cons_iff]
    by_cases hc : c = nl
    · rw [hc, splitLines_cons_nl, List.tail_cons] at h
      constructor
      · rw [hc, matchSep_cons, if_pos rfl, Option.map_eq_none']
        exact matchSpacesNl_of_first_line cs l ls hls (h l (by rw [hls]; exact List.mem_cons_self _ _))
      · exact ih (fun x hx => h x (List.mem_of_mem_tail hx))
    · rw [splitLines_cons_char hc hls, List.tail_cons] at h
      exact ⟨matchSep_of_ne_nl cs hc, ih (by rw [hls, List.tail_cons]; exact h)⟩

/-- A text without blank line holds no separator. -/
theorem sepFree_of_noBlankLine {T : Str} (h : noBlankLine T = true) : sepFree T = true :=
  sepFree_of_tail_lines T (fun l hl => (noBlankLine_iff T).mp h l (List.mem_of_mem_tail hl))

theorem tail_lines_of_sepFree (T : Str) (hfree : sepFree T = true) (hend : EndsVisible T) :
    ∀ l ∈ (splitLines T).tail, isBlank l = false := by
  induction T with
  | nil => intro l hl; simp [splitLines] at hl
  | cons c cs ih =>
    obtain ⟨l, ls, hls⟩ := splitLines_exists cs
    have h2 := (sepFree_cons_iff c cs).mp hfree
    have ih2 := ih h2.2 (endsVisible_tail hend)
    by_cases hc : c = nl
    · rw [hc, splitLines_cons_nl, List.tail_cons, hls]
      have hm : matchSpacesNl cs = none := by
        have := h2.1
        rw [matchSep_cons, if_pos hc, Option.map_eq_none'] at this
        exact this
      have hne : cs ≠ [] := by
        intro h0
        have := hend c (by rw [h0]; rfl)
        rw [hc, isSpace_nl] at this
        exact Bool.noConfusion this
      intro x hx
      rcases List.mem_cons.mp hx with rfl | hx2
      · exact first_line_of_matchSpacesNl cs x ls hls hm (endsVisible_exists (endsVisible_tail hend) hne)
      · exact ih2 x (by rw [hls, List.tail_cons]; exact hx2)
    · rw [splitLines_cons_char hc hls, List.tail_cons]
      rw [hls, List.tail_cons] at ih2
      exact ih2

/-- A text without separator that starts and ends on a visible character has no
blank line. -/
theorem noBlankLine_of_sepFree {T : Str} (hne : T ≠ []) (hfree : sepFree T = true)
    (hstart : StartsVisible T) (hend : EndsVisible T) : noBlankLine T = true := by
  rw [noBlankLine_iff]
  have htail := tail_lines_of_sepFree T hfree hend
  cases T with
  | nil => exact absurd rfl hne
  | cons c cs =>
    obtain ⟨l, ls, hls⟩ := splitLines_exists cs
    have hc : isSpace c = false := hstart c rfl
    rw [splitLines_cons_char (ne_nl_of_not_isSpace hc) hls] at htail ⊢
    intro x hx
    rcases List.mem_cons.mp hx with rfl | hx2
    · rw [isBlank_cons, hc, Bool.false_and]
    · exact htail x hx2

theorem noBlankLine_ne_nil {T : Str} (h : noBlankLine T = true) : T ≠ [] := by
  intro h0
  rw [h0] at h
  exact Bool.noConfusion h

/-- A line without line feed, a line feed, and a text without separator that
starts on a visible character: no separator. -/
theorem sepFree_line_nl (X Y : Str) (hX : ∀ x ∈ X, x ≠ nl) (hY : sepFree Y = true)
    (hstart : StartsVisible Y) : sepFree (X ++ nl :: Y) = true := by
  induction X with
  | nil =>
    rw [List.nil_append, sepFree_cons_iff]
    refine ⟨?_, hY⟩
    rw [matchSep_cons, if_pos rfl, Option.map_eq_none']
    cases Y with
    | nil => rfl
    | cons y Y => exact matchSpacesNl_of_not_isSpace Y (hstart y rfl)
  | cons x X ih =>
    rw [List.cons_append, sepFree_cons_iff]
    exact ⟨matchSep_of_ne_nl _ (hX x (List.mem_cons_self _ _)),
      ih (fun y hy => hX y (List.mem_cons_of_mem _ hy))⟩

/-! ## Numbers -/

theorem digitChar_spec (d : Nat) (h : d < 10) :
    isDigit (Nat.digitChar d) = true ∧ (Nat.digitChar d).toNat - 48 = d := by
  interval_cases d <;> exact ⟨by decide, by decide⟩

theorem digitVal_digitChar (d : Nat) (h : d < 10) : digitVal 10 (Nat.digitChar d) = some d := by
  obtain ⟨h1, h2⟩ := digitChar_spec d h
  simp [digitVal, h1, h2]

theorem readDigits_cons_digit (d : Nat) (h : d < 10) (cs : Str) (acc : Nat) :
    readDigits 10 (Nat.digitChar d :: cs) acc = readDigits 10 cs (acc * 10 + d) := by
  rw [readDigits, digitVal_digitChar d h]

theorem toDigitsCore_succ (f n : Nat) (ds : List Char) :
    Nat.toDigitsCore 10 (f + 1) n ds =
      if n / 10 = 0 then Nat.digitChar (n % 10) :: ds
      else Nat.toDigitsCore 10 f (n / 10) (Nat.digitChar (n % 10) :: ds) := rfl

/-- Reading the decimal digits of `n` gives `n`. -/
theorem readDigits_toDigitsCore (f n : Nat) (ds : List Char) (h : n < f) :
    readDigits 10 (Nat.toDigitsCore 10 f n ds) 0 = readDigits 10 ds n := by
  induction f generalizing n ds with
  | zero => omega
  | succ f ih =>
    rw [toDigitsCore_succ]
    have hmod : n % 10 < 10 := Nat.mod_lt _ (by decide)
    by_cases h0 : n / 10 = 0
    · rw [if_pos h0, readDigits_cons_digit _ hmod]
      congr 1
      omega
    · rw [if_neg h0, ih (n / 10) _ (by omega), readDigits_cons_digit _ hmod]
      congr 1
      omega

theorem toDigitsCore_all_digits (f n : Nat) (ds : List Char) :
    ∀ c ∈ Nat.toDigitsCore 10 f n ds, isDigit c = true ∨ c ∈ ds := by
  induction f generalizing n ds with
  | zero => intro c hc; exact Or.inr hc
  | succ f ih =>
    have hmod : n % 10 < 10 := Nat.mod_lt _ (by decide)
    intro c hc
    rw [toDigitsCore_succ] at hc
    by_cases h0 : n / 10 = 0
    · rw [if_pos h0] at hc
      rcases List.mem_cons.mp hc with rfl | hc2
      · exact Or.inl (digitChar_spec _ hmod).1
      · exact Or.inr hc2
    · rw [if_neg h0] at hc
      rcases ih _ _ c hc with h1 | h1
      · exact Or.inl h1
      · rcases List.mem_cons.mp h1 with rfl | hc2
        · exact Or.inl (digitChar_spec _ hmod).1
        · exact Or.inr hc2

theorem toDigitsCore_ne_nil (f n : Nat) (ds : List Char) (h : n < f) :
    Nat.toDigitsCore 10 f n ds ≠ [] := by
  induction f generalizing n ds with
  | zero => omega
  | succ f ih =>
    rw [toDigitsCore_succ]
    by_cases h0 : n / 10 = 0
    · rw [if_pos h0]; simp
    · rw [if_neg h0]; exact ih _ _ (by omega)

theorem toDigits_all_digits (n : Nat) : ∀ c ∈ Nat.toDigits 10 n, isDigit c = true := by
  intro c hc
  rcases toDigitsCore_all_digits (n + 1) n [] c hc with h | h
  · exact h
  · simp at h

theorem toDigits_ne_nil (n : Nat) : Nat.toDigits 10 n ≠ [] :=
  toDigitsCore_ne_nil (n + 1) n [] (Nat.lt_succ_self n)

theorem readDigits_toDigits (n : Nat) : readDigits 10 (Nat.toDigits 10 n) 0 = n :=
  readDigits_toDigitsCore (n + 1) n [] (Nat.lt_succ_self n)

theorem hasHexPrefix_digits (s : Str) (hd : ∀ c ∈ s, isDigit c = true) :
    hasHexPrefix s = false := by
  match s with
  | [] => rfl
  | [_] => rfl
  | a :: b :: cs =>
    have hb : isDigit b = true := hd b (by simp)
    have hx : b ≠ 'x' := by intro h; rw [h] at hb; exact absurd hb (by decide)
    have hX : b ≠ 'X' := by intro h; rw [h] at hb; exact absurd hb (by decide)
    simp [hasHexPrefix, hx, hX]

theorem readNat_digits (s : Str) (hne : s ≠ []) (hd : ∀ c ∈ s, isDigit c = true) :
    readNat 10 s = some (readDigits 10 s 0) := by
  cases s with
  | nil => exact absurd rfl hne
  | cons c cs =>
    have hc : isDigit c = true := hd c (List.mem_cons_self _ _)
    simp [readNat, digitVal, hc]

theorem roundToDouble_of_lt {m : Nat} (h : m < 2 ^ 53) : roundToDouble m = some m := by
  unfold roundToDouble
  rw [if_pos h]

theorem toNumber_of_lt (negative : Bool) {m : Nat} (h : m < 2 ^ 53) :
    toNumber negative m = Num.finite (if negative then - (m : Int) else (m : Int)) := by
  unfold toNumber
  rw [roundToDouble_of_lt h]

theorem readNat_eq_none_iff (radix : Nat) (s : Str) :
    readNat radix s = none ↔ startsWithDigit radix s = false := by
  cases s with
  | nil => simp [readNat, startsWithDigit]
  | cons c cs =>
    cases h : (digitVal radix c).isSome <;> simp [readNat, startsWithDigit, h]

/-- The lines on which `parseInt` gives `NaN`. -/
theorem parseInt_eq_none_iff (l : Str) : parseInt l = none ↔ isNaNLine l = true := by
  unfold parseInt isNaNLine
  simp only [Option.map_eq_none']
  split
  · rw [readNat_eq_none_iff]; simp
  · rw [readNat_eq_none_iff]; simp

/-- The value `parseInt` gives to a text that starts with a decimal digit and
not with `0x` or `0X`. -/
theorem parseInt_of_digit_head (c : Char) (cs : Str) (hc : isDigit c = true)
    (hx : hasHexPrefix (c :: cs) = false) :
    parseInt (c :: cs) = some (toNumber false (readDigits 10 (c :: cs) 0)) := by
  have h1 : trimStart (c :: cs) = c :: cs := by
    simp [trimStart, List.dropWhile_cons, not_isSpace_of_isDigit hc]
  have hminus : c ≠ '-' := by intro h; rw [h] at hc; exact absurd hc (by decide)
  have hplus : c ≠ '+' := by intro h; rw [h] at hc; exact absurd hc (by decide)
  have h2 : dropSign (c :: cs) = c :: cs := by simp [dropSign, hminus, hplus]
  have h3 : startsWithMinus (c :: cs) = false := by simp [startsWithMinus, hminus]
  have h4 : readNat 10 (c :: cs) = some (readDigits 10 (c :: cs) 0) := by
    simp [readNat, digitVal, hc]
  simp only [parseInt, h1, h2, h3, hx, h4]
  rfl

/-- The value `parseInt` gives to a minus sign in front of such a text. -/
theorem parseInt_minus_digit_head (c : Char) (cs : Str) (hc : isDigit c = true)
    (hx : hasHexPrefix (c :: cs) = false) :
    parseInt ('-' :: c :: cs) = some (toNumber true (readDigits 10 (c :: cs) 0)) := by
  have h1 : trimStart ('-' :: c :: cs) = '-' :: c :: cs := rfl
  have h2 : dropSign ('-' :: c :: cs) = c :: cs := rfl
  have h3 : startsWithMinus ('-' :: c :: cs) = true := rfl
  have h4 : readNat 10 (c :: cs) = some (readDigits 10 (c :: cs) 0) := by
    simp [readNat, digitVal, hc]
  simp only [parseInt, h1, h2, h3, hx, h4]
  rfl

/-- The value `parseInt` gives to a run of decimal digits. -/
theorem parseInt_digits (s : Str) (hne : s ≠ []) (hd : ∀ c ∈ s, isDigit c = true) :
    parseInt s = some (toNumber false (readDigits 10 s 0)) := by
  cases s with
  | nil => exact absurd rfl hne
  | cons c cs =>
    exact parseInt_of_digit_head c cs (hd c (List.mem_cons_self _ _))
      (hasHexPrefix_digits _ hd)

/-- The value `parseInt` gives to a minus sign followed by decimal digits. -/
theorem parseInt_minus_digits (s : Str) (hne : s ≠ []) (hd : ∀ c ∈ s, isDigit c = true) :
    parseInt ('-' :: s) = some (toNumber true (readDigits 10 s 0)) := by
  cases s with
  | nil => exact absurd rfl hne
  | cons c cs =>
    exact parseInt_minus_digit_head c cs (hd c (List.mem_cons_self _ _))
      (hasHexPrefix_digits _ hd)

theorem readDigits_append_other (ds : Str) (c : Char) (rest : Str) (acc : Nat)
    (hd : ∀ x ∈ ds, isDigit x = true) (hc : isDigit c = false) :
    readDigits 10 (ds ++ c :: rest) acc = readDigits 10 ds acc := by
  induction ds generalizing acc with
  | nil => simp [readDigits, digitVal, hc]
  | cons x ds ih =>
    have hx : isDigit x = true := hd x (List.mem_cons_self _ _)
    have ih2 := fun a => ih a (fun y hy => hd y (List.mem_cons_of_mem _ hy))
    simp only [List.cons_append, readDigits, digitVal, hx, if_true]
    simp only [show ¬ (10 = 16) by decide, if_false]
    exact ih2 _

/-- Decimal digits followed by a character that is not a digit, `x` or `X`:
`parseInt` reads the digits and ignores the rest. -/
theorem parseInt_digits_then (ds : Str) (c : Char) (rest : Str) (hne : ds ≠ [])
    (hd : ∀ x ∈ ds, isDigit x = true) (hc : isDigit c = false) (hx : c ≠ 'x') (hX : c ≠ 'X') :
    parseInt (ds ++ c :: rest) = parseInt ds := by
  rw [parseInt_digits ds hne hd]
  match ds, hne, hd with
  | [d], _, hd =>
    have hp : hasHexPrefix (d :: c :: rest) = false := by simp [hasHexPrefix, hx, hX]
    have := parseInt_of_digit_head d (c :: rest) (hd d (List.mem_cons_self _ _)) hp
    rw [List.singleton_append, this]
    have h2 := readDigits_append_other [d] c rest 0 hd hc
    rw [List.singleton_append] at h2
    rw [h2]
  | d :: d2 :: ds, _, hd =>
    have h2d : isDigit d2 = true := hd d2 (by simp)
    have hx2 : d2 ≠ 'x' := by intro h; rw [h] at h2d; exact absurd h2d (by decide)
    have hX2 : d2 ≠ 'X' := by intro h; rw [h] at h2d; exact absurd h2d (by decide)
    have hp : hasHexPrefix (d :: (d2 :: ds ++ c :: rest)) = false := by
      simp [hasHexPrefix, hx2, hX2]
    have := parseInt_of_digit_head d (d2 :: ds ++ c :: rest) (hd d (List.mem_cons_self _ _)) hp
    rw [List.cons_append, this]
    have h2 := readDigits_append_other (d :: d2 :: ds) c rest 0 hd hc
    rw [List.cons_append] at h2
    rw [h2]

/-- Reading back the decimal text of an integer below `2 ^ 53` in magnitude
gives the Number of that integer. -/
theorem parseInt_decimalText (i : Int) (h : i.natAbs < 2 ^ 53) :
    parseInt (decimalText i) = some (Num.finite i) := by
  cases i with
  | ofNat n =>
    have hn : n < 2 ^ 53 := h
    rw [decimalText, parseInt_digits _ (toDigits_ne_nil n) (toDigits_all_digits n),
      readDigits_toDigits, toNumber_of_lt false hn]
    rfl
  | negSucc n =>
    have hn : n + 1 < 2 ^ 53 := h
    rw [decimalText, parseInt_minus_digits _ (toDigits_ne_nil _) (toDigits_all_digits _),
      readDigits_toDigits, toNumber_of_lt true hn]
    rfl

/-- A Number that is an integer below `2 ^ 53` in magnitude is written as its
decimal text. -/
theorem numToString_of_lt (i : Int) (h : i.natAbs < 2 ^ 53) :
    numToString (Num.finite i) = decimalText i := by
  cases i with
  | ofNat n =>
    have hn : n < 2 ^ 53 := h
    simp only [numToString, natToString, if_pos hn, decimalText]
  | negSucc n =>
    have hn : n + 1 < 2 ^ 53 := h
    simp only [numToString, natToString, if_pos hn, decimalText]

/-- Reading back the text of a safe Number gives the Number. -/
theorem parseInt_numToString (x : Num) (h : isSafe x = true) :
    parseInt (numToString x) = some x := by
  cases x with
  | finite i =>
    have hi : i.natAbs < 2 ^ 53 := by simpa [isSafe] using h
    rw [numToString_of_lt i hi, parseInt_decimalText i hi]
  | infinite b => exact Bool.noConfusion h

theorem formatDigits_chars (s k n : Nat) :
    (∀ c ∈ formatDigits s k n, isSpace c = false) ∧ formatDigits s k n ≠ [] := by
  unfold formatDigits
  split
  · refine ⟨fun c hc => ?_, ?_⟩
    · rcases List.mem_append.mp hc with h | h
      · exact not_isSpace_of_isDigit (toDigits_all_digits s c h)
      · rw [(List.mem_replicate.mp h).2]; decide
    · intro h
      exact toDigits_ne_nil s (List.append_eq_nil.mp h).1
  · cases hds : Nat.toDigits 10 s with
    | nil => exact absurd hds (toDigits_ne_nil s)
    | cons c rest =>
      dsimp only
      have hall : ∀ x ∈ c :: rest, isSpace x = false := by
        intro x hx
        rw [← hds] at hx
        exact not_isSpace_of_isDigit (toDigits_all_digits s x hx)
      have hhead : ∀ x ∈ (if rest.isEmpty = true then [c] else c :: '.' :: rest),
          isSpace x = false := by
        intro x hx
        split at hx
        · rw [List.mem_singleton] at hx
          rw [hx]
          exact hall c (List.mem_cons_self _ _)
        · rcases List.mem_cons.mp hx with h | h
          · rw [h]; exact hall c (List.mem_cons_self _ _)
          · rcases List.mem_cons.mp h with h | h
            · rw [h]; decide
            · exact hall x (List.mem_cons_of_mem _ h)
      refine ⟨fun x hx => ?_, ?_⟩
      · rcases List.mem_append.mp hx with h | h
        · exact hhead x h
        · rcases List.mem_cons.mp h with h | h
          · rw [h]; decide
          · rcases List.mem_cons.mp h with h | h
            · rw [h]; decide
            · exact not_isSpace_of_isDigit (toDigits_all_digits _ x h)
      · intro h
        exact List.cons_ne_nil _ _ (List.append_eq_nil.mp h).2

theorem natToString_chars (x : Nat) :
    (∀ c ∈ natToString x, isSpace c = false) ∧ natToString x ≠ [] := by
  unfold natToString
  split
  · exact ⟨fun c hc => not_isSpace_of_isDigit (toDigits_all_digits x c hc), toDigits_ne_nil x⟩
  · dsimp only
    split
    · exact formatDigits_chars _ _ _
    · exact formatDigits_chars _ _ _

/-- The text of a Number has no white space and no line feed, and is not
empty. -/
theorem numToString_chars (x : Num) :
    (∀ c ∈ numToString x, isSpace c = false) ∧ numToString x ≠ [] := by
  match x with
  | Num.finite (Int.ofNat n) => exact natToString_chars n
  | Num.finite (Int.negSucc n) =>
    refine ⟨fun c hc => ?_, by simp [numToString]⟩
    rcases List.mem_cons.mp hc with rfl | h
    · decide
    · exact (natToString_chars _).1 c h
  | Num.infinite false => exact ⟨by decide, by decide⟩
  | Num.infinite true => exact ⟨by decide, by decide⟩

/-! ## Time stamps -/

theorem matchStamp_some {s a r : Str} (h : matchStamp s = some (a, r)) :
    s = a ++ r ∧ isStamp a = true := by
  unfold matchStamp at h
  split at h
  · split at h
    · rename_i hcond
      simp only [Option.some.injEq, Prod.mk.injEq] at h
      obtain ⟨rfl, rfl⟩ := h
      refine ⟨rfl, ?_⟩
      simp only [isStamp, matchStamp, hcond, if_true, List.isEmpty_nil]
    · exact Option.noConfusion h
  · exact Option.noConfusion h

theorem matchStamp_of_isStamp {t : Str} (h : isStamp t = true) (rest : Str) :
    matchStamp (t ++ rest) = some (t, rest) := by
  unfold isStamp at h
  split at h
  · rename_i a r hm
    obtain ⟨hs, _⟩ := matchStamp_some hm
    have hr : r = [] := List.isEmpty_iff.mp h
    unfold matchStamp at hm
    split at hm
    · split at hm
      · rename_i hcond
        simp only [Option.some.injEq, Prod.mk.injEq] at hm
        obtain ⟨rfl, rfl⟩ := hm
        rw [hr]
        simp only [List.cons_append, List.nil_append, matchStamp, hcond, if_true]
      · exact Option.noConfusion hm
    · exact Option.noConfusion hm
  · exact Bool.noConfusion h

theorem isStamp_chars {t : Str} (h : isStamp t = true) :
    (∀ c ∈ t, isSpace c = false) ∧ t ≠ [] := by
  unfold isStamp at h
  split at h
  · rename_i a r hm
    have hr : r = [] := List.isEmpty_iff.mp h
    unfold matchStamp at hm
    split at hm
    · split at hm
      · rename_i hcond
        simp only [Bool.and_eq_true, beq_iff_eq] at hcond
        obtain ⟨⟨⟨⟨⟨⟨⟨⟨⟨⟨⟨d1, d2⟩, e1⟩, d3⟩, d4⟩, e2⟩, d5⟩, d6⟩, e3⟩, d7⟩, d8⟩, d9⟩ := hcond
        simp only [Option.some.injEq, Prod.mk.injEq] at hm
        rw [← hm.2] at hr
        rw [hr]
        refine ⟨?_, by simp⟩
        intro c hc
        simp only [List.mem_cons, List.mem_singleton, List.not_mem_nil, or_false] at hc
        rcases hc with rfl | rfl | rfl | rfl | rfl | rfl | rfl | rfl | rfl | rfl | rfl | rfl
        all_goals first
          | exact not_isSpace_of_isDigit (by assumption)
          | (subst_vars; decide)
      · exact Option.noConfusion hm
    · exact Option.noConfusion hm
  · exact Bool.noConfusion h

theorem isStamp_startsVisible {t : Str} (h : isStamp t = true) : StartsVisible t := by
  intro c hc
  exact (isStamp_chars h).1 c (List.mem_of_mem_head? hc)

theorem matchTimeAt_timing {a b : Str} (ha : isStamp a = true) (hb : isStamp b = true) :
    matchTimeAt (a ++ " --> ".toList ++ b) = some (a, b) := by
  have h1 : a ++ " --> ".toList ++ b = a ++ (' ' :: '-' :: '-' :: '>' :: ' ' :: b) := by
    rw [List.append_assoc]; rfl
  have h2 : List.dropWhile isSpace (' ' :: '-' :: '-' :: '>' :: ' ' :: b)
      = '-' :: '-' :: '>' :: ' ' :: b := by
    rw [List.dropWhile_cons_of_pos (by decide), List.dropWhile_cons_of_neg (by decide)]
  have h3 : matchArrow ('-' :: '-' :: '>' :: ' ' :: b) = some (' ' :: b) := rfl
  have h4 : List.dropWhile isSpace (' ' :: b) = b := by
    rw [List.dropWhile_cons_of_pos (by decide)]
    exact trimStart_of_startsVisible (isStamp_startsVisible hb)
  have h5 : matchStamp b = some (b, []) := by
    have := matchStamp_of_isStamp hb []
    rwa [List.append_nil] at this
  rw [h1]
  unfold matchTimeAt
  rw [matchStamp_of_isStamp ha]
  simp only [h2, h3, h4, h5]

theorem matchTime_timing {a b : Str} (ha : isStamp a = true) (hb : isStamp b = true) :
    matchTime (a ++ " --> ".toList ++ b) = some (a, b) := by
  have h := matchTimeAt_timing ha hb
  cases hs : a ++ " --> ".toList ++ b with
  | nil => simp at hs
  | cons c cs =>
    rw [hs] at h
    rw [matchTime, h]

theorem matchTimeAt_stamps {s a b : Str} (h : matchTimeAt s = some (a, b)) :
    isStamp a = true ∧ isStamp b = true := by
  unfold matchTimeAt at h
  split at h
  · exact Option.noConfusion h
  · rename_i t1 r1 h1
    split at h
    · exact Option.noConfusion h
    · split at h
      · exact Option.noConfusion h
      · rename_i t2 r3 h3
        simp only [Option.some.injEq, Prod.mk.injEq] at h
        rw [← h.1, ← h.2]
        exact ⟨(matchStamp_some h1).2, (matchStamp_some h3).2⟩

/-- The two captures of a match of the timing pattern have the shape
`HH:MM:SS,mmm`. -/
theorem matchTime_stamps {s a b : Str} (h : matchTime s = some (a, b)) :
    isStamp a = true ∧ isStamp b = true := by
  induction s with
  | nil => exact Option.noConfusion h
  | cons c cs ih =>
    rw [matchTime] at h
    split at h
    · rename_i r hr
      rw [Option.some.inj h] at hr
      exact matchTimeAt_stamps hr
    · exact ih h

/-! ## Reading back what `processSRT` writes -/

theorem endsVisible_append (X : Str) {T : Str} (hne : T ≠ []) (h : EndsVisible T) :
    EndsVisible (X ++ T) := by
  intro c hc
  rw [List.getLast?_append, List.getLast?_eq_getLast T hne] at hc
  exact h c (by rw [List.getLast?_eq_getLast T hne]; exact hc)

theorem startsVisible_append {X : Str} (Y : Str) (hne : X ≠ []) (h : StartsVisible X) :
    StartsVisible (X ++ Y) := by
  cases X with
  | nil => exact absurd rfl hne
  | cons x X => intro c hc; exact h c hc

theorem startsVisible_of_all {X : Str} (h : ∀ c ∈ X, isSpace c = false) : StartsVisible X :=
  fun c hc => h c (List.mem_of_mem_head? hc)

theorem render_eq (r : Subtitle) :
    render r = numToString r.index ++ nl :: (timingLine r ++ nl :: r.text) := by
  simp [render, timingLine, List.append_assoc]

theorem numToString_no_nl (i : Num) : ∀ c ∈ numToString i, c ≠ nl :=
  fun c hc => ne_nl_of_not_isSpace ((numToString_chars i).1 c hc)

theorem timingLine_no_nl {r : Subtitle} (h : WellFormed r) : ∀ c ∈ timingLine r, c ≠ nl := by
  intro c hc
  simp only [timingLine, List.mem_append] at hc
  rcases hc with (hc | hc) | hc
  · exact ne_nl_of_not_isSpace ((isStamp_chars h.1).1 c hc)
  · have : c = ' ' ∨ c = '-' ∨ c = '>' := by
      have h5 : " --> ".toList = [' ', '-', '-', '>', ' '] := rfl
      rw [h5] at hc
      simp only [List.mem_cons, List.mem_singleton, List.not_mem_nil, or_false] at hc
      tauto
    rcases this with rfl | rfl | rfl <;> decide
  · exact ne_nl_of_not_isSpace ((isStamp_chars h.2.1).1 c hc)

theorem timingLine_startsVisible {r : Subtitle} (h : WellFormed r) (Y : Str) :
    StartsVisible (timingLine r ++ Y) := by
  unfold timingLine
  rw [List.append_assoc, List.append_assoc]
  exact startsVisible_append _ (isStamp_chars h.1).2 (isStamp_startsVisible h.1)

theorem render_startsVisible (r : Subtitle) (Y : Str) : StartsVisible (render r ++ Y) := by
  rw [render_eq, List.append_assoc]
  exact startsVisible_append _ (numToString_chars r.index).2
    (startsVisible_of_all (numToString_chars r.index).1)

theorem render_ne_nil (r : Subtitle) : render r ≠ [] := by
  rw [render_eq]
  intro h
  exact (numToString_chars r.index).2 (List.append_eq_nil.mp h).1

theorem render_endsVisible {r : Subtitle} (h : WellFormed r) : EndsVisible (render r) := by
  rw [render_eq]
  have h1 : EndsVisible (nl :: r.text) :=
    endsVisible_append [nl] (noBlankLine_ne_nil h.2.2.2) (visible_of_trim_eq h.2.2.1).2
  have h2 : EndsVisible (nl :: (timingLine r ++ nl :: r.text)) :=
    endsVisible_append (nl :: timingLine r) (List.cons_ne_nil _ _) h1
  exact endsVisible_append _ (List.cons_ne_nil _ _) h2

theorem render_sepFree {r : Subtitle} (h : WellFormed r) : sepFree (render r) = true := by
  rw [render_eq]
  apply sepFree_line_nl _ _ (numToString_no_nl r.index)
  · exact sepFree_line_nl _ _ (timingLine_no_nl h) (sepFree_of_noBlankLine h.2.2.2)
      (visible_of_trim_eq h.2.2.1).1
  · exact timingLine_startsVisible h _

/-- The loop body of `parseSRT` reads a rendered record back. -/
theorem parseBlock_render {r : Subtitle} (h : WellFormed r) (hsafe : isSafe r.index = true) :
    parseBlock (render r) = some r := by
  have htrim : trim (render r) = render r := by
    have := render_startsVisible r []
    rw [List.append_nil] at this
    exact trim_of_visible this (render_endsVisible h)
  obtain ⟨l, ls, hl⟩ := splitLines_exists r.text
  have hjoin : joinWith [nl] (l :: ls) = r.text := by rw [← hl, joinWith_splitLines]
  have hlines : splitLines (render r) = numToString r.index :: timingLine r :: l :: ls := by
    rw [render_eq, splitLines_append_nl _ _ (numToString_no_nl r.index),
      splitLines_append_nl _ _ (timingLine_no_nl h), hl]
  have htime : matchTime (timingLine r) = some (r.startTime, r.endTime) :=
    matchTime_timing h.1 h.2.1
  unfold parseBlock
  rw [htrim, hlines]
  simp only [hjoin, htime, parseInt_numToString r.index hsafe, h.2.2.1]

theorem serialize_cons_cons (r r2 : Subtitle) (rest : List Subtitle) :
    serialize (r :: r2 :: rest) = render r ++ nl :: nl :: serialize (r2 :: rest) := by
  simp [serialize, joinWith_cons_cons]

theorem serialize_singleton (r : Subtitle) : serialize [r] = render r := rfl

theorem serialize_startsVisible (rs : List Subtitle) : StartsVisible (serialize rs) := by
  match rs with
  | [] => intro c hc; simp [serialize, joinWith] at hc
  | [r] =>
    have := render_startsVisible r []
    rwa [List.append_nil] at this
  | r :: r2 :: rest =>
    rw [serialize_cons_cons]
    exact render_startsVisible r _

theorem serialize_ne_nil (r : Subtitle) (rest : List Subtitle) : serialize (r :: rest) ≠ [] := by
  cases rest with
  | nil => exact render_ne_nil r
  | cons r2 rest =>
    rw [serialize_cons_cons]
    intro h
    exact render_ne_nil r (List.append_eq_nil.mp h).1

theorem serialize_endsVisible (rs : List Subtitle) (h : ∀ r ∈ rs, WellFormed r) :
    EndsVisible (serialize rs) := by
  induction rs with
  | nil => intro c hc; simp [serialize, joinWith] at hc
  | cons r tl ih =>
    cases tl with
    | nil => exact render_endsVisible (h r (List.mem_cons_self _ _))
    | cons r2 rest =>
      rw [serialize_cons_cons]
      have h2 := ih (fun x hx => h x (List.mem_cons_of_mem _ hx))
      have h3 : EndsVisible (nl :: nl :: serialize (r2 :: rest)) :=
        endsVisible_append [nl, nl] (serialize_ne_nil r2 rest) h2
      exact endsVisible_append _ (List.cons_ne_nil _ _) h3

/-- The written text splits into the rendered records. -/
theorem splitBlocks_serialize (r : Subtitle) (rest : List Subtitle)
    (h : ∀ x ∈ r :: rest, WellFormed x) :
    splitBlocks (serialize (r :: rest)) = (r :: rest).map render := by
  induction rest generalizing r with
  | nil =>
    exact splitBlocks_block _ (render_sepFree (h r (List.mem_cons_self _ _)))
      (render_endsVisible (h r (List.mem_cons_self _ _)))
  | cons r2 rest ih =>
    have hr := h r (List.mem_cons_self _ _)
    have ih2 := ih r2 (fun x hx => h x (List.mem_cons_of_mem _ hx))
    cases hs : serialize (r2 :: rest) with
    | nil => exact absurd hs (serialize_ne_nil r2 rest)
    | cons c tl =>
      have hc : isSpace c = false := serialize_startsVisible (r2 :: rest) c (by rw [hs]; rfl)
      rw [serialize_cons_cons, hs]
      have := splitBlocks_block_sep (render r) [] c tl (render_sepFree hr)
        (render_endsVisible hr) (by simp) hc
      rw [List.nil_append] at this
      rw [this, ← hs, ih2]
      rfl

theorem filterMap_parseBlock_render (rs : List Subtitle)
    (h : ∀ r ∈ rs, WellFormed r ∧ isSafe r.index = true) :
    (rs.map render).filterMap parseBlock = rs := by
  induction rs with
  | nil => rfl
  | cons r tl ih =>
    have hr := h r (List.mem_cons_self _ _)
    rw [List.map_cons, List.filterMap_cons, parseBlock_render hr.1 hr.2]
    simp only
    rw [ih (fun x hx => h x (List.mem_cons_of_mem _ hx))]

/-- Reading back the text written for well-formed records with safe indices
gives the records. -/
theorem parseSRT_serialize_of_wellFormed (rs : List Subtitle)
    (h : ∀ r ∈ rs, WellFormed r ∧ isSafe r.index = true) :
    parseSRT (serialize rs) = rs := by
  have hwf : ∀ r ∈ rs, WellFormed r := fun r hr => (h r hr).1
  cases rs with
  | nil => rfl
  | cons r rest =>
    unfold parseSRT
    rw [trim_of_visible (serialize_startsVisible _) (serialize_endsVisible _ hwf),
      splitBlocks_serialize r rest hwf]
    exact filterMap_parseBlock_render _ h

/-! ## What `parseSRT` returns -/

/-- The first piece of a scan is a prefix of the text. -/
theorem splitScan_head_initial (s b : Str) (bs : List Str) (h : splitScan s 0 = b :: bs) :
    ∃ tail, s = b ++ tail := by
  induction s generalizing b bs with
  | nil =>
    rw [splitScan_nil] at h
    exact ⟨[], by rw [← (List.cons.inj h).1]; rfl⟩
  | cons c cs ih =>
    cases hm : matchSep (c :: cs) with
    | some n =>
      rw [splitScan_match hm] at h
      exact ⟨c :: cs, by rw [← (List.cons.inj h).1]; rfl⟩
    | none =>
      cases hcs : splitScan cs 0 with
      | nil => exact absurd hcs (splitScan_ne_nil cs 0)
      | cons b0 bs0 =>
        rw [splitScan_char hm hcs] at h
        obtain ⟨tail, ht⟩ := ih b0 bs0 hcs
        exact ⟨tail, by rw [← (List.cons.inj h).1, List.cons_append, ← ht]⟩

/-- No piece of a scan holds a separator. -/
theorem splitScan_sepFree (s : Str) (k : Nat) : ∀ b ∈ splitScan s k, sepFree b = true := by
  induction s generalizing k with
  | nil =>
    intro b hb
    rw [splitScan_nil, List.mem_singleton] at hb
    rw [hb]; rfl
  | cons c cs ih =>
    cases k with
    | succ k => rw [splitScan_skip]; exact ih k
    | zero =>
      cases hm : matchSep (c :: cs) with
      | some n =>
        rw [splitScan_match hm]
        intro b hb
        rcases List.mem_cons.mp hb with rfl | hb2
        · rfl
        · exact ih _ b hb2
      | none =>
        cases hcs : splitScan cs 0 with
        | nil => exact absurd hcs (splitScan_ne_nil cs 0)
        | cons b0 bs0 =>
          rw [splitScan_char hm hcs]
          have ih0 := ih 0
          rw [hcs] at ih0
          obtain ⟨tail, ht⟩ := splitScan_head_initial cs b0 bs0 hcs
          intro b hb
          rcases List.mem_cons.mp hb with rfl | hb2
          · rw [sepFree_cons_iff]
            refine ⟨?_, ih0 b0 (List.mem_cons_self _ _)⟩
            apply matchSep_none_of_append (c :: b0) tail
            rw [List.cons_append, ← ht]
            exact hm
          · exact ih0 b (List.mem_cons_of_mem _ hb2)

theorem endsVisible_right (P : Str) {T : Str} (h : EndsVisible (P ++ T)) : EndsVisible T := by
  intro c hc
  apply h c
  rw [List.getLast?_append, hc]
  rfl

theorem trimStart_ne_nil {s : Str} (h : ∃ c ∈ s, isSpace c = false) : trimStart s ≠ [] := by
  intro h0
  obtain ⟨c, hc, hcs⟩ := h
  have := (List.dropWhile_eq_nil_iff.mp h0) c hc
  rw [hcs] at this
  exact Bool.noConfusion this

theorem trim_ne_nil {s : Str} (hne : s ≠ []) (hend : EndsVisible s) : trim s ≠ [] := by
  obtain ⟨a, ha⟩ := List.dropWhile_suffix isSpace (l := s)
  have h1 : EndsVisible (trimStart s) := by
    rw [← ha] at hend; exact endsVisible_right a hend
  unfold trim
  rw [trimEnd_of_endsVisible h1]
  exact trimStart_ne_nil (endsVisible_exists hend hne)

/-- A record read from a block without separator is well formed. -/
theorem parseBlock_wellFormed {block : Str} {r : Subtitle} (hfree : sepFree block = true)
    (h : parseBlock block = some r) : WellFormed r := by
  unfold parseBlock at h
  split at h
  · rename_i l0 timeLine l2 rest hlines
    dsimp only at h
    split at h
    · rename_i t1 t2 i hmt hpi
      have hr : r = Subtitle.mk i t1 t2 (trim (joinWith [nl] (l2 :: rest))) :=
        (Option.some.inj h).symm
      have hjoin : trim block = (l0 ++ [nl] ++ timeLine) ++ ([nl] ++ joinWith [nl] (l2 :: rest)) := by
        have := joinWith_splitLines (trim block)
        rw [hlines, joinWith_cons_cons, joinWith_cons_cons] at this
        rw [← this]
        simp only [List.append_assoc]
      have hsf : sepFree (trim block) = true := sepFree_trim hfree
      have hev : EndsVisible (trim block) := trim_endsVisible block
      rw [hjoin] at hsf hev
      have hsfT : sepFree (joinWith [nl] (l2 :: rest)) = true :=
        sepFree_right _ _ (sepFree_right _ _ hsf)
      have hevT : EndsVisible (joinWith [nl] (l2 :: rest)) := endsVisible_right _ (endsVisible_right _ hev)
      have hneT : joinWith [nl] (l2 :: rest) ≠ [] := by
        intro h0
        rw [h0, List.append_nil] at hev
        have := (endsVisible_right _ hev) nl rfl
        rw [isSpace_nl] at this
        exact Bool.noConfusion this
      obtain ⟨hs1, hs2⟩ := matchTime_stamps hmt
      rw [hr]
      exact ⟨hs1, hs2, trim_trim _,
        noBlankLine_of_sepFree (trim_ne_nil hneT hevT) (sepFree_trim hsfT)
          (trim_startsVisible _) (trim_endsVisible _)⟩
    · exact Option.noConfusion h
  · exact Option.noConfusion h

/-- Every record returned by `parseSRT` is well formed. -/
theorem parseSRT_wellFormed (content : Str) : ∀ r ∈ parseSRT content, WellFormed r := by
  intro r hr
  unfold parseSRT at hr
  obtain ⟨b, hb, hbr⟩ := List.mem_filterMap.mp hr
  exact parseBlock_wellFormed (splitScan_sepFree _ 0 b hb) hbr

theorem closeGaps_wellFormed (rs : List Subtitle) (h : ∀ r ∈ rs, WellFormed r) :
    ∀ r ∈ closeGaps rs, WellFormed r := by
  induction rs with
  | nil => intro r hr; simp at hr
  | cons s tl ih =>
    cases tl with
    | nil => exact h
    | cons t rest =>
      rw [closeGaps_cons_cons]
      have hs := h s (List.mem_cons_self _ _)
      have ht := h t (List.mem_cons_of_mem _ (List.mem_cons_self _ _))
      intro r hr
      rcases List.mem_cons.mp hr with rfl | hr2
      · exact ⟨hs.1, ht.1, hs.2.2.1, hs.2.2.2⟩
      · exact ih (fun x hx => h x (List.mem_cons_of_mem _ hx)) r hr2

/-! ## Claims about the gap-closing loop -/

/-- C1, gap closure: after the loop every record but the last ends where the
next record of the input starts, which is also where the next record of the
result starts; the last record keeps the end it had; an input of at most one
record comes back as it was. -/
theorem closeGaps_closes_gaps (rs : List Subtitle) :
    (closeGaps rs).length = rs.length ∧
    (∀ (i : Nat) (h : i + 1 < rs.length),
      ((closeGaps rs).get? i).map Subtitle.endTime = some (rs.get ⟨i + 1, h⟩).startTime ∧
      ((closeGaps rs).get? (i + 1)).map Subtitle.startTime
        = some (rs.get ⟨i + 1, h⟩).startTime) ∧
    (closeGaps rs).getLast?.map Subtitle.endTime = rs.getLast?.map Subtitle.endTime ∧
    (rs.length ≤ 1 → closeGaps rs = rs) := by
  refine ⟨closeGaps_length rs, fun i h => ⟨closeGaps_get?_end rs i h, ?_⟩, ?_, ?_⟩
  · rw [closeGaps_get?_start, List.get?_eq_get h]; rfl
  · rw [closeGaps_getLast]
  · intro h
    match rs, h with
    | [], _ => rfl
    | [s], _ => rfl

/-- C2, frame of gap closing: the result has the records of the input in the
same number and order, each with the index, start time and text it had, and
the last record is the one of the input, end time included. -/
theorem closeGaps_frame (rs : List Subtitle) :
    (closeGaps rs).length = rs.length ∧
    (closeGaps rs).map Subtitle.index = rs.map Subtitle.index ∧
    (closeGaps rs).map Subtitle.startTime = rs.map Subtitle.startTime ∧
    (closeGaps rs).map Subtitle.text = rs.map Subtitle.text ∧
    (closeGaps rs).getLast? = rs.getLast? :=
  ⟨closeGaps_length rs, closeGaps_map_of_frame Subtitle.index (fun _ _ => rfl) rs,
    closeGaps_map_of_frame Subtitle.startTime (fun _ _ => rfl) rs,
    closeGaps_map_of_frame Subtitle.text (fun _ _ => rfl) rs, closeGaps_getLast rs⟩

/-- C9, idempotence of gap closing: running the loop on its own result changes
nothing. -/
theorem closeGaps_idempotent (rs : List Subtitle) :
    closeGaps (closeGaps rs) = closeGaps rs :=
  closeGaps_idem rs

/-! ## The whole operation -/

theorem parseSRT_trim (raw : Str) : parseSRT (trim raw) = parseSRT raw := by
  unfold parseSRT
  rw [trim_trim]

theorem parseSRT_of_trim_nil {raw : Str} (h : trim raw = []) : parseSRT raw = [] := by
  unfold parseSRT
  rw [h]
  rfl

/-- The success exit of `processSRT`: it is taken exactly when `parseSRT`
returns a record, with the gap-closed records written out. -/
theorem processSRT_of_parsed {raw : Str} (h : parseSRT raw ≠ []) :
    processSRT raw =
      Outcome.success (serialize (closeGaps (parseSRT raw))) (parseSRT raw).length := by
  have h1 : trim raw ≠ [] := fun h0 => h (parseSRT_of_trim_nil h0)
  have h2 : (parseSRT raw).length ≠ 0 := fun h0 => h (List.length_eq_zero.mp h0)
  unfold processSRT
  simp only [parseSRT_trim, if_neg h1, if_neg h2, closeGaps_length]

theorem processSRT_of_not_parsed {raw : Str} (h : parseSRT raw = []) :
    processSRT raw = Outcome.ignored ∨ processSRT raw = Outcome.noSubtitles := by
  unfold processSRT
  by_cases h1 : trim raw = []
  · left; simp only [if_pos h1]
  · right; simp only [if_neg h1, parseSRT_trim, h, List.length_nil, if_true]

theorem processSRT_success_iff (raw out : Str) (n : Nat) :
    processSRT raw = Outcome.success out n ↔
      parseSRT raw ≠ [] ∧ out = serialize (closeGaps (parseSRT raw)) ∧
        n = (parseSRT raw).length := by
  constructor
  · intro h
    by_cases hp : parseSRT raw = []
    · rcases processSRT_of_not_parsed hp with h2 | h2 <;> rw [h2] at h <;>
        exact Outcome.noConfusion h
    · rw [processSRT_of_parsed hp] at h
      injection h with h3 h4
      exact ⟨hp, h3.symm, h4.symm⟩
  · rintro ⟨hp, rfl, rfl⟩
    exact processSRT_of_parsed hp

/-! ## The sequence-number line -/

theorem parseInt_trimStart (l : Str) : parseInt (trimStart l) = parseInt l := by
  unfold parseInt
  rw [trimStart_of_startsVisible (trimStart_startsVisible l)]

/-- A line that starts with a visible character other than a digit or a sign
gives `NaN`. -/
theorem parseInt_of_no_digit (c : Char) (cs : Str) (hs : isSpace c = false)
    (hd : isDigit c = false) (hplus : c ≠ '+') (hminus : c ≠ '-') :
    parseInt (c :: cs) = none := by
  have h1 : trimStart (c :: cs) = c :: cs := by
    simp [trimStart, List.dropWhile_cons, hs]
  have h2 : dropSign (c :: cs) = c :: cs := by simp [dropSign, hplus, hminus]
  have h0 : c ≠ '0' := by intro h; rw [h] at hd; exact absurd hd (by decide)
  have h3 : hasHexPrefix (c :: cs) = false := by
    cases cs with
    | nil => rfl
    | cons b cs => simp [hasHexPrefix, h0]
  have h4 : readNat 10 (c :: cs) = none := by simp [readNat, digitVal, hd]
  simp only [parseInt, h1, h2, h3, h4]
  rfl

/-- The first line of a rendered record is the decimal text of its index. -/
theorem splitLines_render_head (r : Subtitle) :
    (splitLines (render r)).head? = some (numToString r.index) := by
  rw [render_eq, splitLines_append_nl _ _ (numToString_no_nl r.index)]
  rfl

/-- The index of an accepted block is what `parseInt` reads on its first line. -/
theorem parseBlock_index {block : Str} {r : Subtitle} (h : parseBlock block = some r) :
    ∃ l0 rest, splitLines (trim block) = l0 :: rest ∧ parseInt l0 = some r.index := by
  unfold parseBlock at h
  split at h
  · rename_i l0 timeLine l2 rest hlines
    dsimp only at h
    split at h
    · rename_i t1 t2 i hmt hpi
      refine ⟨l0, _, hlines, ?_⟩
      rw [← Option.some.inj h]
      exact hpi
    · exact Option.noConfusion h
  · exact Option.noConfusion h

/-- A block whose first line `parseInt` cannot read is skipped. -/
theorem parseBlock_of_unreadable {block : Str}
    (h : ∀ l0 rest, splitLines (trim block) = l0 :: rest → parseInt l0 = none) :
    parseBlock block = none := by
  cases hb : parseBlock block with
  | none => rfl
  | some r =>
    obtain ⟨l0, rest, h1, h2⟩ := parseBlock_index hb
    rw [h l0 rest h1] at h2
    exact Option.noConfusion h2

/-- A block of three parts whose first line is not blank: trimming removes the
white space in front of the first line and nothing else. -/
theorem trim_block_of_parts (L Y : Str) (hL : isBlank L = false) (hY : Y ≠ [])
    (hend : EndsVisible Y) : trim (L ++ nl :: Y) = trimStart L ++ nl :: Y := by
  have hv : ∃ c ∈ L, isSpace c = false := by
    obtain ⟨x, hx, hp⟩ := List.all_eq_false.mp hL
    exact ⟨x, hx, by simpa using hp⟩
  have hne : trimStart L ≠ [] := trimStart_ne_nil hv
  have h1 : trimStart (L ++ nl :: Y) = trimStart L ++ nl :: Y := by
    unfold trimStart
    rw [List.dropWhile_append]
    have : (List.dropWhile isSpace L).isEmpty = false := by
      cases hd : List.dropWhile isSpace L with
      | nil => exact absurd hd hne
      | cons a b => rfl
    rw [this]
    rfl
  unfold trim
  rw [h1]
  exact trimEnd_of_endsVisible
    (endsVisible_append _ (List.cons_ne_nil _ _) (endsVisible_append [nl] hY hend))

/-- The block of a well-formed record with another first line is skipped when
`parseInt` cannot read that line. -/
theorem parseBlock_replaced_index {r : Subtitle} (h : WellFormed r) (L : Str)
    (hnl : ∀ c ∈ L, c ≠ nl) (hL : isBlank L = false) (hint : parseInt L = none) :
    parseBlock (L ++ nl :: (timingLine r ++ nl :: r.text)) = none := by
  apply parseBlock_of_unreadable
  intro l0 rest hlines
  have hY : EndsVisible (timingLine r ++ nl :: r.text) :=
    endsVisible_append _ (List.cons_ne_nil _ _)
      (endsVisible_append [nl] (noBlankLine_ne_nil h.2.2.2) (visible_of_trim_eq h.2.2.1).2)
  have hYne : timingLine r ++ nl :: r.text ≠ [] := by simp
  rw [trim_block_of_parts L _ hL hYne hY] at hlines
  have hnl2 : ∀ c ∈ trimStart L, c ≠ nl :=
    fun c hc => hnl c ((List.dropWhile_sublist isSpace).subset hc)
  rw [splitLines_append_nl _ _ hnl2] at hlines
  rw [← (List.cons.inj hlines).1, parseInt_trimStart]
  exact hint

/-- Three blocks separated by two line feeds, the middle one with a first line
that `parseInt` cannot read: the records of the first and the third. -/
theorem parseSRT_middle_unreadable {r1 r2 r3 : Subtitle} (h1 : WellFormed r1)
    (h2 : WellFormed r2) (h3 : WellFormed r3) (hsafe1 : isSafe r1.index = true)
    (hsafe3 : isSafe r3.index = true) (L : Str) (hnl : ∀ c ∈ L, c ≠ nl)
    (hL : isBlank L = false) (hint : parseInt L = none) :
    parseSRT (render r1 ++ [nl, nl] ++ (L ++ [nl] ++ timingLine r2 ++ [nl] ++ r2.text)
      ++ [nl, nl] ++ render r3) = [r1, r3] := by
  have hdoc : render r1 ++ [nl, nl] ++ (L ++ [nl] ++ timingLine r2 ++ [nl] ++ r2.text)
      ++ [nl, nl] ++ render r3
      = render r1 ++ nl :: nl ::
          ((L ++ nl :: (timingLine r2 ++ nl :: r2.text)) ++ nl :: nl :: render r3) := by
    simp [List.append_assoc]
  have hv : ∃ c ∈ L, isSpace c = false := by
    obtain ⟨x, hx, hp⟩ := List.all_eq_false.mp hL
    exact ⟨x, hx, by simpa using hp⟩
  -- the middle block
  have hT2 : EndsVisible (nl :: r2.text) :=
    endsVisible_append [nl] (noBlankLine_ne_nil h2.2.2.2) (visible_of_trim_eq h2.2.2.1).2
  have hY2 : EndsVisible (nl :: (timingLine r2 ++ nl :: r2.text)) :=
    endsVisible_append (nl :: timingLine r2) (List.cons_ne_nil _ _) hT2
  have hB2end : EndsVisible (L ++ nl :: (timingLine r2 ++ nl :: r2.text)) :=
    endsVisible_append L (List.cons_ne_nil _ _) hY2
  have hB2free : sepFree (L ++ nl :: (timingLine r2 ++ nl :: r2.text)) = true :=
    sepFree_line_nl _ _ hnl
      (sepFree_line_nl _ _ (timingLine_no_nl h2) (sepFree_of_noBlankLine h2.2.2.2)
        (visible_of_trim_eq h2.2.2.1).1)
      (timingLine_startsVisible h2 _)
  -- the first line of the middle block: white space, then a visible character
  have hsplitL : List.takeWhile isSpace L ++ trimStart L = L :=
    List.takeWhile_append_dropWhile isSpace L
  have hw : ∀ x ∈ List.takeWhile isSpace L, x ≠ nl :=
    fun x hx => hnl x ((List.takeWhile_sublist isSpace).subset hx)
  cases hd : trimStart L with
  | nil => exact absurd hd (trimStart_ne_nil hv)
  | cons c L2 =>
    have hc : isSpace c = false := trimStart_startsVisible L c (by rw [hd]; rfl)
    obtain ⟨c3, tl3, hr3⟩ : ∃ c3 tl3, render r3 = c3 :: tl3 := by
      cases hr : render r3 with
      | nil => exact absurd hr (render_ne_nil r3)
      | cons c3 tl3 => exact ⟨c3, tl3, rfl⟩
    have hc3 : isSpace c3 = false := by
      have := render_startsVisible r3 []
      rw [List.append_nil, hr3] at this
      exact this c3 rfl
    have hs3 : splitBlocks (render r3) = [render r3] :=
      splitBlocks_block _ (render_sepFree h3) (render_endsVisible h3)
    have hs2 : splitBlocks ((L ++ nl :: (timingLine r2 ++ nl :: r2.text))
        ++ nl :: nl :: render r3)
        = [L ++ nl :: (timingLine r2 ++ nl :: r2.text), render r3] := by
      have := splitBlocks_block_sep _ [] c3 tl3 hB2free hB2end (by simp) hc3
      rw [List.nil_append, ← hr3] at this
      rw [this, hs3]
    have hshape : (L ++ nl :: (timingLine r2 ++ nl :: r2.text)) ++ nl :: nl :: render r3
        = List.takeWhile isSpace L ++ c ::
            (L2 ++ nl :: (timingLine r2 ++ nl :: r2.text) ++ nl :: nl :: render r3) := by
      conv_lhs => rw [← hsplitL, hd]
      simp [List.append_assoc]
    have hs1 : splitBlocks (render r1 ++ nl :: nl ::
        ((L ++ nl :: (timingLine r2 ++ nl :: r2.text)) ++ nl :: nl :: render r3))
        = [render r1, L ++ nl :: (timingLine r2 ++ nl :: r2.text), render r3] := by
      rw [hshape, splitBlocks_block_sep _ _ c _ (render_sepFree h1) (render_endsVisible h1)
        hw hc, ← hshape, hs2]
    have hstart : StartsVisible (render r1 ++ nl :: nl ::
        ((L ++ nl :: (timingLine r2 ++ nl :: r2.text)) ++ nl :: nl :: render r3)) :=
      render_startsVisible r1 _
    have hend : EndsVisible (render r1 ++ nl :: nl ::
        ((L ++ nl :: (timingLine r2 ++ nl :: r2.text)) ++ nl :: nl :: render r3)) := by
      have e3 : EndsVisible (nl :: nl :: render r3) :=
        endsVisible_append [nl, nl] (render_ne_nil r3) (render_endsVisible h3)
      have e2 := endsVisible_append (L ++ nl :: (timingLine r2 ++ nl :: r2.text))
        (List.cons_ne_nil _ _) e3
      have e1 := endsVisible_append [nl, nl] (by simp) e2
      exact endsVisible_append (render r1) (List.cons_ne_nil _ _) e1
    rw [hdoc]
    unfold parseSRT
    rw [trim_of_visible hstart hend, hs1]
    simp only [List.filterMap_cons, List.filterMap_nil, parseBlock_render h1 hsafe1,
      parseBlock_render h3 hsafe3, parseBlock_replaced_index h2 L hnl hL hint]

/-! ## Documents made of blocks -/

theorem closeGaps_safe (rs : List Subtitle) (h : ∀ r ∈ rs, isSafe r.index = true) :
    ∀ r ∈ closeGaps rs, isSafe r.index = true := by
  have hmap := closeGaps_map_of_frame Subtitle.index (fun _ _ => rfl) rs
  intro r hr
  have : r.index ∈ (closeGaps rs).map Subtitle.index := List.mem_map_of_mem _ hr
  rw [hmap] at this
  obtain ⟨r0, hr0, h0⟩ := List.mem_map.mp this
  rw [← h0]
  exact h r0 hr0

theorem joinWith_head (sep b : Str) (rest : List Str) :
    ∃ t, joinWith sep (b :: rest) = b ++ t := by
  cases rest with
  | nil => exact ⟨[], (List.append_nil b).symm⟩
  | cons b2 rest => exact ⟨sep ++ joinWith sep (b2 :: rest), by rw [joinWith_cons_cons, List.append_assoc]⟩

theorem joinWith_startsVisible (sep b : Str) (rest : List Str) (hne : b ≠ [])
    (h : StartsVisible b) : StartsVisible (joinWith sep (b :: rest)) := by
  obtain ⟨t, ht⟩ := joinWith_head sep b rest
  rw [ht]
  exact startsVisible_append t hne h

theorem joinWith_ne_nil (sep b : Str) (rest : List Str) (hne : b ≠ []) :
    joinWith sep (b :: rest) ≠ [] := by
  obtain ⟨t, ht⟩ := joinWith_head sep b rest
  rw [ht]
  intro h
  exact hne (List.append_eq_nil.mp h).1

theorem joinWith_endsVisible (bs : List Str) (h : ∀ x ∈ bs, x ≠ [] ∧ EndsVisible x) :
    EndsVisible (joinWith [nl, nl] bs) := by
  induction bs with
  | nil => intro c hc; simp [joinWith] at hc
  | cons b tl ih =>
    cases tl with
    | nil => exact (h b (List.mem_cons_self _ _)).2
    | cons b2 rest =>
      have h2 := ih (fun x hx => h x (List.mem_cons_of_mem _ hx))
      have hb2 := (h b2 (List.mem_cons_of_mem _ (List.mem_cons_self _ _))).1
      rw [joinWith_cons_cons, List.append_assoc]
      exact endsVisible_append b (by simp)
        (endsVisible_append [nl, nl] (joinWith_ne_nil _ b2 rest hb2) h2)

/-- A trimmed text without blank line is a block: not empty, visible at both
ends, without separator. -/
theorem block_facts {b : Str} (h : trim b = b ∧ noBlankLine b = true) :
    b ≠ [] ∧ StartsVisible b ∧ EndsVisible b ∧ sepFree b = true :=
  ⟨noBlankLine_ne_nil h.2, (visible_of_trim_eq h.1).1, (visible_of_trim_eq h.1).2,
    sepFree_of_noBlankLine h.2⟩

/-- Blocks joined by two line feeds are split into the same blocks. -/
theorem splitBlocks_joinWith (b : Str) (rest : List Str)
    (h : ∀ x ∈ b :: rest, trim x = x ∧ noBlankLine x = true) :
    splitBlocks (joinWith [nl, nl] (b :: rest)) = b :: rest := by
  induction rest generalizing b with
  | nil =>
    have hb := block_facts (h b (List.mem_cons_self _ _))
    exact splitBlocks_block b hb.2.2.2 hb.2.2.1
  | cons b2 rest ih =>
    have hb := block_facts (h b (List.mem_cons_self _ _))
    have hb2 := block_facts (h b2 (List.mem_cons_of_mem _ (List.mem_cons_self _ _)))
    have ih2 := ih b2 (fun x hx => h x (List.mem_cons_of_mem _ hx))
    cases hj : joinWith [nl, nl] (b2 :: rest) with
    | nil => exact absurd hj (joinWith_ne_nil _ b2 rest hb2.1)
    | cons c tl =>
      have hc : isSpace c = false :=
        joinWith_startsVisible [nl, nl] b2 rest hb2.1 hb2.2.1 c (by rw [hj]; rfl)
      have := splitBlocks_block_sep b [] c tl hb.2.2.2 hb.2.2.1 (by simp) hc
      rw [List.nil_append] at this
      rw [joinWith_cons_cons, hj, List.append_assoc]
      show splitBlocks (b ++ nl :: nl :: c :: tl) = b :: b2 :: rest
      rw [this, ← hj, ih2]

/-- A document made of blocks joined by two line feeds: `parseSRT` gives, in
block order, the records of the blocks that the loop body accepts. -/
theorem parseSRT_joinWith (bs : List Str) (h : ∀ x ∈ bs, trim x = x ∧ noBlankLine x = true) :
    parseSRT (joinWith [nl, nl] bs) = bs.filterMap parseBlock := by
  cases bs with
  | nil => rfl
  | cons b rest =>
    have hb := block_facts (h b (List.mem_cons_self _ _))
    have hend := joinWith_endsVisible (b :: rest)
      (fun x hx => ⟨(block_facts (h x hx)).1, (block_facts (h x hx)).2.2.1⟩)
    unfold parseSRT
    rw [trim_of_visible (joinWith_startsVisible _ b rest hb.1 hb.2.1) hend,
      splitBlocks_joinWith b rest h]

/-! ## Claims about reading and writing -/

/-- C3, as amended: for every sequence of records with an index that is an
integer of magnitude below `2 ^ 53`, both times of the shape `HH:MM:SS,mmm` and
a trimmed text none of whose lines is empty or made of white space only,
`parseSRT` applied to the text written for the records returns the same
records. -/
theorem parseSRT_serialize_roundtrip (rs : List Subtitle)
    (h : ∀ r ∈ rs, WellFormed r ∧ isSafe r.index = true) :
    parseSRT (serialize rs) = rs :=
  parseSRT_serialize_of_wellFormed rs h

/-- C3: a witness of the round trip, with a text of two lines and a negative
sequence number. -/
theorem parseSRT_serialize_roundtrip_witness :
    (∀ r ∈ [Subtitle.mk (Num.finite 7) "00:00:01,000".toList "00:00:02,500".toList
              "Hello\n you".toList,
            Subtitle.mk (Num.finite (-3)) "00:00:03,000".toList "00:00:04,000".toList
              "World".toList],
        WellFormed r ∧ isSafe r.index = true) ∧
    parseSRT (serialize
      [Subtitle.mk (Num.finite 7) "00:00:01,000".toList "00:00:02,500".toList
         "Hello\n you".toList,
       Subtitle.mk (Num.finite (-3)) "00:00:03,000".toList "00:00:04,000".toList
         "World".toList]) =
      [Subtitle.mk (Num.finite 7) "00:00:01,000".toList "00:00:02,500".toList
         "Hello\n you".toList,
       Subtitle.mk (Num.finite (-3)) "00:00:03,000".toList "00:00:04,000".toList
         "World".toList] :=
  ⟨by decide, parseSRT_serialize_roundtrip _ (by decide)⟩

/-- C3, the claim as stated fails twice.  A record that is valid in the words
of the specification, with times in order, whose text has an empty line in the
middle is not read back: the text comes back cut at the empty line.  And a
valid record whose index is the integer `10 ^ 21` is written with the line
`1e+21` and read back with index 1. -/
theorem parseSRT_serialize_blank_line_counterexample :
    (∀ r ∈ [Subtitle.mk (Num.finite 1) "00:00:01,000".toList "00:00:02,000".toList
              "a\n\nb".toList],
        SpecValid r) ∧
    chronological [Subtitle.mk (Num.finite 1) "00:00:01,000".toList "00:00:02,000".toList
      "a\n\nb".toList] = true ∧
    parseSRT (serialize
      [Subtitle.mk (Num.finite 1) "00:00:01,000".toList "00:00:02,000".toList
         "a\n\nb".toList]) =
      [Subtitle.mk (Num.finite 1) "00:00:01,000".toList "00:00:02,000".toList "a".toList] ∧
    parseSRT (serialize
      [Subtitle.mk (Num.finite 1) "00:00:01,000".toList "00:00:02,000".toList
         "a\n\nb".toList]) ≠
      [Subtitle.mk (Num.finite 1) "00:00:01,000".toList "00:00:02,000".toList
         "a\n\nb".toList] ∧
    SpecValid (Subtitle.mk (Num.finite 1000000000000000000000) "00:00:01,000".toList
      "00:00:02,000".toList "a".toList) ∧
    serialize [Subtitle.mk (Num.finite 1000000000000000000000) "00:00:01,000".toList
      "00:00:02,000".toList "a".toList] = "1e+21\n00:00:01,000 --> 00:00:02,000\na".toList ∧
    parseSRT (serialize [Subtitle.mk (Num.finite 1000000000000000000000) "00:00:01,000".toList
      "00:00:02,000".toList "a".toList]) =
      [Subtitle.mk (Num.finite 1) "00:00:01,000".toList "00:00:02,000".toList "a".toList] := by
  refine ⟨by decide, by decide, by decide, by decide, by decide, by decide, by decide⟩

/-- C10, as amended: when every sequence number that `parseSRT` reads is an
integer of magnitude below `2 ^ 53`, the operation is idempotent on its own
output: if `processSRT` succeeds, running it on the text it wrote succeeds with
the same text and the same count; equivalently, reading back the written
gap-closed records gives them back.  Every record `parseSRT` returns, whatever
its index, has times of the shape `HH:MM:SS,mmm` and a trimmed text without
blank line. -/
theorem processSRT_idempotent (raw : Str) (hsafe : ∀ r ∈ parseSRT raw, isSafe r.index = true) :
    (∀ (out : Str) (n : Nat), processSRT raw = Outcome.success out n →
      processSRT out = Outcome.success out n) ∧
    parseSRT (serialize (closeGaps (parseSRT raw))) = closeGaps (parseSRT raw) ∧
    (∀ r ∈ parseSRT raw, WellFormed r) := by
  have hwf := closeGaps_wellFormed _ (parseSRT_wellFormed raw)
  have hsf := closeGaps_safe _ hsafe
  have hrt := parseSRT_serialize_of_wellFormed _ (fun r hr => ⟨hwf r hr, hsf r hr⟩)
  refine ⟨?_, hrt, parseSRT_wellFormed raw⟩
  intro out n h
  obtain ⟨hp, rfl, rfl⟩ := (processSRT_success_iff raw _ _).mp h
  have hne : closeGaps (parseSRT raw) ≠ [] := by
    intro h0
    have := closeGaps_length (parseSRT raw)
    rw [h0] at this
    exact hp (List.length_eq_zero.mp this.symm)
  rw [processSRT_success_iff, hrt, closeGaps_idem, closeGaps_length]
  exact ⟨hne, rfl, rfl⟩

/-- C10: the scenario of the specification run a second time on its own
output. -/
theorem processSRT_idempotent_witness :
    processSRT
      "1\n00:00:01,000 --> 00:00:05,000\nHello\n\n2\n00:00:05,000 --> 00:00:06,000\nWorld".toList
    = Outcome.success
      "1\n00:00:01,000 --> 00:00:05,000\nHello\n\n2\n00:00:05,000 --> 00:00:06,000\nWorld".toList
      2 :=
  (processSRT_idempotent
    "1\n00:00:01,000 --> 00:00:02,000\nHello\n\n2\n00:00:05,000 --> 00:00:06,000\nWorld".toList
    (by decide)).1 _ 2 (by decide)

/-- C10, the claim as stated fails: a block numbered with the 22 digits of
`10 ^ 21` is written with the line `1e+21`; run on that output, the operation
reads the index 1 and writes the line `1`, another text. -/
theorem processSRT_not_idempotent_counterexample :
    processSRT "1000000000000000000000\n00:00:01,000 --> 00:00:02,000\nHi".toList =
      Outcome.success "1e+21\n00:00:01,000 --> 00:00:02,000\nHi".toList 1 ∧
    processSRT "1e+21\n00:00:01,000 --> 00:00:02,000\nHi".toList =
      Outcome.success "1\n00:00:01,000 --> 00:00:02,000\nHi".toList 1 ∧
    processSRT "1e+21\n00:00:01,000 --> 00:00:02,000\nHi".toList ≠
      Outcome.success "1e+21\n00:00:01,000 --> 00:00:02,000\nHi".toList 1 := by
  refine ⟨by decide, by decide, by decide⟩

/-- C7, as amended: `processSRT` writes no output exactly when the trimmed text
is empty or `parseSRT` returns no record, and succeeds exactly when `parseSRT`
returns a record.  When the trimmed text is empty the operation returns at once
and reports nothing; the failure with the no-records error is raised exactly
when the trimmed text is not empty and `parseSRT` returns no record.  The empty
text and a text of white space only both take the silent return. -/
theorem processSRT_fails_iff (raw : Str) :
    ((processSRT raw = Outcome.ignored ∨ processSRT raw = Outcome.noSubtitles) ↔
      (trim raw = [] ∨ parseSRT raw = [])) ∧
    ((∃ out n, processSRT raw = Outcome.success out n) ↔ parseSRT raw ≠ []) ∧
    (processSRT raw = Outcome.ignored ↔ trim raw = []) ∧
    (processSRT raw = Outcome.noSubtitles ↔ (trim raw ≠ [] ∧ parseSRT raw = [])) ∧
    processSRT [] = Outcome.ignored ∧
    processSRT "   \n\n  ".toList = Outcome.ignored := by
  refine ⟨⟨?_, ?_⟩, ⟨?_, ?_⟩, ⟨?_, ?_⟩, ⟨?_, ?_⟩, rfl, by decide⟩
  · intro h
    right
    by_contra hp
    rw [processSRT_of_parsed hp] at h
    rcases h with h | h <;> exact Outcome.noConfusion h
  · rintro (h | h)
    · exact processSRT_of_not_parsed (parseSRT_of_trim_nil h)
    · exact processSRT_of_not_parsed h
  · rintro ⟨out, n, h⟩
    exact ((processSRT_success_iff raw out n).mp h).1
  · intro hp
    exact ⟨_, _, processSRT_of_parsed hp⟩
  · intro h
    by_contra h1
    unfold processSRT at h
    simp only [if_neg h1] at h
    split at h <;> exact Outcome.noConfusion h
  · intro h
    unfold processSRT
    simp only [if_pos h]
  · intro h
    have h1 : trim raw ≠ [] := by
      intro h0
      unfold processSRT at h
      simp only [if_pos h0] at h
      exact Outcome.noConfusion h
    refine ⟨h1, ?_⟩
    by_contra hp
    rw [processSRT_of_parsed hp] at h
    exact Outcome.noConfusion h
  · rintro ⟨h1, hp⟩
    unfold processSRT
    simp only [if_neg h1, parseSRT_trim, hp, List.length_nil, if_true]

/-- C7, the claim as stated fails: on the empty text and on a text of white
space only the operation does not end with the no-records failure; it takes the
silent return, before anything is parsed or reported. -/
theorem processSRT_empty_not_failure_counterexample :
    processSRT [] = Outcome.ignored ∧
    processSRT [] ≠ Outcome.noSubtitles ∧
    processSRT "   \n\n  ".toList = Outcome.ignored ∧
    processSRT "   \n\n  ".toList ≠ Outcome.noSubtitles := by
  refine ⟨by decide, by decide, by decide, by decide⟩

/-- C8, as amended: when `parseSRT` returns `n ≥ 1` records, `processSRT`
succeeds with count `n` and with the gap-closed records written as the text of
the index Number, a line feed, `startTime --> endTime`, a line feed and the
text, joined by two line feeds with nothing after the last record: the output
ends on a visible character and splits into `n` blocks.  The text of an index
that is an integer of magnitude below `2 ^ 53` is that integer in decimal. -/
theorem processSRT_result (raw : Str) (n : Nat) (hn : 1 ≤ n) (h : (parseSRT raw).length = n) :
    processSRT raw =
      Outcome.success
        (joinWith [nl, nl] ((closeGaps (parseSRT raw)).map (fun s =>
          numToString s.index ++ [nl] ++ s.startTime ++ " --> ".toList ++ s.endTime
            ++ [nl] ++ s.text)))
        n ∧
    (∀ out : Str, processSRT raw = Outcome.success out n →
      EndsVisible out ∧ (splitBlocks out).length = n) ∧
    (∀ i : Int, i.natAbs < 2 ^ 53 → numToString (Num.finite i) = decimalText i) := by
  have hp : parseSRT raw ≠ [] := by
    intro h0; rw [h0] at h; simp at h; omega
  refine ⟨?_, ?_, numToString_of_lt⟩
  · rw [processSRT_of_parsed hp, h]
    rfl
  · intro out hout
    obtain ⟨_, rfl, _⟩ := (processSRT_success_iff raw _ _).mp hout
    have hwf := closeGaps_wellFormed _ (parseSRT_wellFormed raw)
    refine ⟨serialize_endsVisible _ hwf, ?_⟩
    cases hc : closeGaps (parseSRT raw) with
    | nil =>
      have := closeGaps_length (parseSRT raw)
      rw [hc] at this
      exact absurd (List.length_eq_zero.mp this.symm) hp
    | cons r rest =>
      rw [hc] at hwf
      rw [splitBlocks_serialize r rest hwf, List.length_map, ← hc, closeGaps_length, h]

/-- C8: the scenario of the specification, two captions with a gap of three
seconds between them. -/
theorem processSRT_result_witness :
    processSRT
      "1\n00:00:01,000 --> 00:00:02,000\nHello\n\n2\n00:00:05,000 --> 00:00:06,000\nWorld".toList
    = Outcome.success
      "1\n00:00:01,000 --> 00:00:05,000\nHello\n\n2\n00:00:05,000 --> 00:00:06,000\nWorld".toList
      2 :=
  (processSRT_result _ 2 (by decide) (by decide)).1.trans (by decide)

/-- C8, the claim as stated fails: the sequence number `10 ^ 21`, read from a
line of 22 digits, is not written in decimal but as `1e+21`. -/
theorem processSRT_exponent_counterexample :
    parseSRT "1000000000000000000000\n00:00:01,000 --> 00:00:02,000\nHi".toList =
      [Subtitle.mk (Num.finite 1000000000000000000000) "00:00:01,000".toList
        "00:00:02,000".toList "Hi".toList] ∧
    decimalText 1000000000000000000000 = "1000000000000000000000".toList ∧
    processSRT "1000000000000000000000\n00:00:01,000 --> 00:00:02,000\nHi".toList =
      Outcome.success "1e+21\n00:00:01,000 --> 00:00:02,000\nHi".toList 1 ∧
    processSRT "1000000000000000000000\n00:00:01,000 --> 00:00:02,000\nHi".toList ≠
      Outcome.success
        "1000000000000000000000\n00:00:01,000 --> 00:00:02,000\nHi".toList 1 := by
  refine ⟨by decide, by decide, by decide, by decide⟩

set_option maxRecDepth 100000 in
/-- The largest sequence numbers: a line of 310 nines is read as Infinity and
written as `Infinity`; on that output `parseInt` gives `NaN`, no record is
found, and the operation fails. -/
theorem processSRT_infinity :
    processSRT (List.replicate 310 '9' ++ "\n00:00:01,000 --> 00:00:02,000\nHi".toList) =
      Outcome.success "Infinity\n00:00:01,000 --> 00:00:02,000\nHi".toList 1 ∧
    processSRT "Infinity\n00:00:01,000 --> 00:00:02,000\nHi".toList = Outcome.noSubtitles := by
  refine ⟨by decide, by decide⟩

/-- C4, the code at a timing line with extra characters around the pattern:
the line is not the pattern alone (a digit before the first time, a letter
after the second), yet the block is accepted, with the first time read without
its leading digit. -/
theorem parseSRT_accepts_unanchored_timing :
    isTimingLine "100:00:01,000 --> 00:00:02,000x".toList = false ∧
    parseSRT "1\n100:00:01,000 --> 00:00:02,000x\nHello".toList =
      [Subtitle.mk (Num.finite 1) "00:00:01,000".toList "00:00:02,000".toList
        "Hello".toList] := by
  refine ⟨by decide, by decide⟩

/-- The part of the timing-line validation that holds on the code: a block is
accepted only if the pattern matches somewhere in its second line, and the
start and end times of the record are the two captures of the leftmost match,
each of the exact shape `HH:MM:SS,mmm`. -/
theorem parseBlock_timing (block : Str) (r : Subtitle) (h : parseBlock block = some r) :
    ∃ l0 timeLine rest, splitLines (trim block) = l0 :: timeLine :: rest ∧
      matchTime timeLine = some (r.startTime, r.endTime) ∧
      isStamp r.startTime = true ∧ isStamp r.endTime = true := by
  unfold parseBlock at h
  split at h
  · rename_i l0 timeLine l2 rest hlines
    dsimp only at h
    split at h
    · rename_i t1 t2 i hmt hpi
      obtain ⟨hs1, hs2⟩ := matchTime_stamps hmt
      rw [← Option.some.inj h]
      exact ⟨l0, timeLine, _, hlines, hmt, hs1, hs2⟩
    · exact Option.noConfusion h
  · exact Option.noConfusion h

/-- A block with white space around the arrow of its timing line. -/
theorem parseBlock_timing_witness :
    ∃ l0 timeLine rest,
      splitLines (trim "4\n00:00:01,000  -->\t00:00:02,000\nHi".toList) = l0 :: timeLine :: rest ∧
      matchTime timeLine = some ("00:00:01,000".toList, "00:00:02,000".toList) ∧
      isStamp "00:00:01,000".toList = true ∧ isStamp "00:00:02,000".toList = true :=
  parseBlock_timing "4\n00:00:01,000  -->\t00:00:02,000\nHi".toList
    (Subtitle.mk (Num.finite 4) "00:00:01,000".toList "00:00:02,000".toList "Hi".toList)
    (by decide)

/-- C5, as amended.  A block is skipped when `parseInt` gives `NaN` on the
first line of the trimmed block.  `parseInt` gives `NaN` on a line exactly when,
after the leading white space and one optional sign, either `0x` or `0X` comes
with no hexadecimal digit after it, or no `0x` or `0X` comes and the rest does
not start with a decimal digit; so it does on every line that starts with a
visible character other than a digit or a sign.  Decimal digits followed by a
character that is not a digit, `x` or `X` are read as the digits alone.  For a
document made of trimmed blocks without blank line joined by two line feeds,
`parseSRT` returns in block order the records of the blocks the loop body
accepts.  And three well-formed blocks, the first and third with a safe index,
of which the second has its sequence-number line replaced by a line that is not
blank and on which `parseInt` gives `NaN`, give the records of the first and
the third, in this order. -/
theorem parseSRT_skips_unreadable_index :
    (∀ block : Str,
      (∀ l0 rest, splitLines (trim block) = l0 :: rest → parseInt l0 = none) →
        parseBlock block = none) ∧
    (∀ l : Str, parseInt l = none ↔ isNaNLine l = true) ∧
    (∀ (c : Char) (cs : Str), isSpace c = false → isDigit c = false → c ≠ '+' → c ≠ '-' →
      parseInt (c :: cs) = none) ∧
    (∀ (ds : Str) (c : Char) (rest : Str), ds ≠ [] → (∀ x ∈ ds, isDigit x = true) →
      isDigit c = false → c ≠ 'x' → c ≠ 'X' → parseInt (ds ++ c :: rest) = parseInt ds) ∧
    (∀ bs : List Str, (∀ b ∈ bs, trim b = b ∧ noBlankLine b = true) →
      parseSRT (joinWith [nl, nl] bs) = bs.filterMap parseBlock) ∧
    (∀ (r1 r2 r3 : Subtitle) (L : Str), WellFormed r1 → WellFormed r2 → WellFormed r3 →
      isSafe r1.index = true → isSafe r3.index = true →
      (∀ c ∈ L, c ≠ nl) → isBlank L = false → parseInt L = none →
      parseSRT (render r1 ++ [nl, nl] ++ (L ++ [nl] ++ timingLine r2 ++ [nl] ++ r2.text)
        ++ [nl, nl] ++ render r3) = [r1, r3]) :=
  ⟨fun _ h => parseBlock_of_unreadable h, parseInt_eq_none_iff, parseInt_of_no_digit,
    fun ds c rest hne hd hc hx hX => parseInt_digits_then ds c rest hne hd hc hx hX,
    parseSRT_joinWith,
    fun _ _ _ L h1 h2 h3 hs1 hs3 hnl hL hint =>
      parseSRT_middle_unreadable h1 h2 h3 hs1 hs3 L hnl hL hint⟩

/-- C5: three blocks, the second with the line `two` in place of its number. -/
theorem parseSRT_skips_unreadable_index_witness :
    parseSRT ("1\n00:00:01,000 --> 00:00:02,000\nA\n\ntwo\n00:00:03,000 --> 00:00:04,000\nB"
      ++ "\n\n3\n00:00:05,000 --> 00:00:06,000\nC").toList =
      [Subtitle.mk (Num.finite 1) "00:00:01,000".toList "00:00:02,000".toList "A".toList,
       Subtitle.mk (Num.finite 3) "00:00:05,000".toList "00:00:06,000".toList "C".toList] :=
  parseSRT_skips_unreadable_index.2.2.2.2.2
    (Subtitle.mk (Num.finite 1) "00:00:01,000".toList "00:00:02,000".toList "A".toList)
    (Subtitle.mk (Num.finite 2) "00:00:03,000".toList "00:00:04,000".toList "B".toList)
    (Subtitle.mk (Num.finite 3) "00:00:05,000".toList "00:00:06,000".toList "C".toList)
    "two".toList (by decide) (by decide) (by decide) (by decide) (by decide) (by decide)
    (by decide) (by decide)

/-- C5, the claim as stated fails.  First, the line `2nd` is not an integer,
yet the block under it is kept, with index 2.  Second, when the number of the
second block is replaced by a blank line, the block starts at its timing line,
and if its text starts with a line that holds a timing, the block is kept with
index 0: three records instead of two. -/
theorem parseSRT_keeps_non_integer_counterexample :
    isIntegerText "2nd".toList = false ∧
    parseSRT ("1\n00:00:01,000 --> 00:00:02,000\nA\n\n2nd\n00:00:03,000 --> 00:00:04,000\nB"
      ++ "\n\n3\n00:00:05,000 --> 00:00:06,000\nC").toList =
      [Subtitle.mk (Num.finite 1) "00:00:01,000".toList "00:00:02,000".toList "A".toList,
       Subtitle.mk (Num.finite 2) "00:00:03,000".toList "00:00:04,000".toList "B".toList,
       Subtitle.mk (Num.finite 3) "00:00:05,000".toList "00:00:06,000".toList "C".toList] ∧
    isIntegerText " ".toList = false ∧
    parseSRT ("1\n00:00:01,000 --> 00:00:02,000\nA\n\n \n00:00:03,000 --> 00:00:04,000\n"
      ++ "00:00:03,000 --> 00:00:03,500\nB\n\n3\n00:00:05,000 --> 00:00:06,000\nC").toList =
      [Subtitle.mk (Num.finite 1) "00:00:01,000".toList "00:00:02,000".toList "A".toList,
       Subtitle.mk (Num.finite 0) "00:00:03,000".toList "00:00:03,500".toList "B".toList,
       Subtitle.mk (Num.finite 3) "00:00:05,000".toList "00:00:06,000".toList "C".toList] := by
  refine ⟨by decide, by decide, by decide, by decide⟩

/-- C6, as amended: when `processSRT` succeeds, the first lines of the blocks
of the output are, in order, the texts of the index Numbers `parseSRT` read;
the index of an accepted block is what `parseInt` reads on the first line of
the trimmed block, and when that line is the decimal text of an integer of
magnitude below `2 ^ 53` the output line is the same string. -/
theorem processSRT_index_lines (raw out : Str) (n : Nat)
    (h : processSRT raw = Outcome.success out n) :
    (splitBlocks out).map (fun b => (splitLines b).head?) =
      (parseSRT raw).map (fun r => some (numToString r.index)) ∧
    (∀ block ∈ splitBlocks (trim raw), ∀ r, parseBlock block = some r →
      ∃ l0 rest, splitLines (trim block) = l0 :: rest ∧ parseInt l0 = some r.index ∧
        (∀ i : Int, i.natAbs < 2 ^ 53 → l0 = decimalText i → numToString r.index = l0)) := by
  obtain ⟨hp, rfl, rfl⟩ := (processSRT_success_iff raw _ _).mp h
  constructor
  · have hwf := closeGaps_wellFormed _ (parseSRT_wellFormed raw)
    cases hc : closeGaps (parseSRT raw) with
    | nil =>
      have := closeGaps_length (parseSRT raw)
      rw [hc] at this
      exact absurd (List.length_eq_zero.mp this.symm) hp
    | cons r rest =>
      rw [hc] at hwf
      rw [splitBlocks_serialize r rest hwf, ← hc, List.map_map]
      have hfun : ((fun b => (splitLines b).head?) ∘ render)
          = (fun r : Subtitle => some (numToString r.index)) :=
        funext (fun r => splitLines_render_head r)
      rw [hfun]
      exact closeGaps_map_of_frame (fun r => some (numToString r.index)) (fun _ _ => rfl) _
  · intro block _ r hb
    obtain ⟨l0, rest, h1, h2⟩ := parseBlock_index hb
    refine ⟨l0, rest, h1, h2, ?_⟩
    intro i hi hl
    rw [hl, parseInt_decimalText i hi] at h2
    rw [hl, ← Option.some.inj h2, numToString_of_lt i hi]

/-- C6: a block numbered 12 keeps the line `12`. -/
theorem processSRT_index_lines_witness :
    (splitBlocks "12\n00:00:01,000 --> 00:00:02,000\nHi".toList).map
        (fun b => (splitLines b).head?) =
      (parseSRT "12\n00:00:01,000 --> 00:00:02,000\nHi".toList).map
        (fun r => some (numToString r.index)) :=
  (processSRT_index_lines "12\n00:00:01,000 --> 00:00:02,000\nHi".toList
    "12\n00:00:01,000 --> 00:00:02,000\nHi".toList 1 (by decide)).1

/-- C6, the claim as stated fails: the sequence-number line `007` of the input
is written as `7`; and the line `9007199254740993`, the decimal text of
`2 ^ 53 + 1`, is written as `9007199254740992`. -/
theorem processSRT_renumbers_counterexample :
    parseSRT "007\n00:00:01,000 --> 00:00:02,000\nHi".toList =
      [Subtitle.mk (Num.finite 7) "00:00:01,000".toList "00:00:02,000".toList "Hi".toList] ∧
    processSRT "007\n00:00:01,000 --> 00:00:02,000\nHi".toList =
      Outcome.success "7\n00:00:01,000 --> 00:00:02,000\nHi".toList 1 ∧
    (splitLines "007\n00:00:01,000 --> 00:00:02,000\nHi".toList).head? = some "007".toList ∧
    (splitLines "7\n00:00:01,000 --> 00:00:02,000\nHi".toList).head? = some "7".toList ∧
    (splitLines "7\n00:00:01,000 --> 00:00:02,000\nHi".toList).head? ≠
      (splitLines "007\n00:00:01,000 --> 00:00:02,000\nHi".toList).head? ∧
    decimalText (2 ^ 53 + 1) = "9007199254740993".toList ∧
    processSRT "9007199254740993\n00:00:01,000 --> 00:00:02,000\nHi".toList =
      Outcome.success "9007199254740992\n00:00:01,000 --> 00:00:02,000\nHi".toList 1 := by
  refine ⟨by decide, by decide, by decide, by decide, by decide, by decide, by decide⟩

/-- C1: the loop on three records. -/
theorem closeGaps_closes_gaps_witness :
    ((closeGaps
      [Subtitle.mk (Num.finite 1) "00:00:01,000".toList "00:00:02,000".toList "A".toList,
       Subtitle.mk (Num.finite 2) "00:00:03,000".toList "00:00:04,000".toList "B".toList,
       Subtitle.mk (Num.finite 3) "00:00:05,000".toList "00:00:06,000".toList "C".toList]).get?
        1).map Subtitle.endTime = some "00:00:05,000".toList :=
  ((closeGaps_closes_gaps
      [Subtitle.mk (Num.finite 1) "00:00:01,000".toList "00:00:02,000".toList "A".toList,
       Subtitle.mk (Num.finite 2) "00:00:03,000".toList "00:00:04,000".toList "B".toList,
       Subtitle.mk (Num.finite 3) "00:00:05,000".toList "00:00:06,000".toList "C".toList]).2.1 1
    (by decide)).1

end SrtTime
